import Mathlib

/-!
Verification of the ARC code-golf evaluation harness (`arc_utils`).

This file gives a shallow embedding of the verification and scoring engine:

* `arc_utils/evaluator.py` — `_run_and_sanitize`, `_verify_split` (the
  sandboxed verifier: serialize → boolean-normalize → character-sanitize →
  re-parse → numpy object-array comparison);
* `arc_utils/score.py` — `score_for_length`;
* `arc_utils/evaluator.py` / `arc_utils/compare_solutions.py` — the module
  naming used by `_import_solver` / `_import_solver_from`;
* `arc_utils/eval_all.py` / `arc_utils/compare_solutions.py` — `_eval_one`.

Python values returned by a solver are modelled by `PyVal`; Python strings
are modelled as `List Char`.  Python floats are modelled at integer values
only (`PyVal.float n` is the float whose exact value is the integer `n`,
e.g. `1.0`); such floats are exactly representable in IEEE doubles and
their `repr` is the decimal digits followed by `.0`.  The `json` module's
`dumps`/`loads` are modelled on this fragment: `loads` implements the JSON
grammar of arrays and (non-exponent) numbers, which is the full grammar
reachable after the sanitizer has rejected every other character class.
Exceptions are modelled with `Except String`.
-/

/-- A Python value as returned by a solver and as produced by `json.loads`.
`float n` stands for the IEEE double with exact integer value `n`. -/
inductive PyVal where
  | int (n : Int)
  | float (n : Int)
  | bool (b : Bool)
  | str (s : String)
  | list (elems : List PyVal)

mutual
/-- Structural size of a `PyVal` (number of constructors), used as a
measure for induction. -/
def pvSize : PyVal → Nat
  | .list xs => 1 + pvSizeList xs
  | _ => 1
def pvSizeList : List PyVal → Nat
  | [] => 0
  | x :: xs => pvSize x + pvSizeList xs
end

mutual
/-- Nesting depth of a `PyVal` (atoms have depth 0). -/
def pvDepth : PyVal → Nat
  | .list xs => 1 + pvDepthList xs
  | _ => 0
def pvDepthList : List PyVal → Nat
  | [] => 0
  | x :: xs => max (pvDepth x) (pvDepthList xs)
end

mutual
/-- Python `==` on the modelled values: numbers (and `bool`, which is an
`int` subclass in Python) compare by numeric value, strings by content,
lists elementwise, and values of unrelated kinds compare unequal. -/
def pyEq : PyVal → PyVal → Bool
  | .int a, .int b => a == b
  | .int a, .float b => a == b
  | .float a, .int b => a == b
  | .float a, .float b => a == b
  | .bool a, .bool b => a == b
  | .bool a, .int b => (if a then (1 : Int) else 0) == b
  | .int a, .bool b => a == (if b then (1 : Int) else 0)
  | .bool a, .float b => (if a then (1 : Int) else 0) == b
  | .float a, .bool b => a == (if b then (1 : Int) else 0)
  | .str a, .str b => a == b
  | .list xs, .list ys => pyEqList xs ys
  | _, _ => false
def pyEqList : List PyVal → List PyVal → Bool
  | [], [] => true
  | x :: xs, y :: ys => pyEq x y && pyEqList xs ys
  | _, _ => false
end

/-- Little-endian decimal digits of `n` (with explicit fuel so that the
definition is structural and kernel-reducible). -/
def natDigitsRev : Nat → Nat → List Nat
  | 0, _ => []
  | fuel + 1, n => if n = 0 then [] else n % 10 :: natDigitsRev fuel (n / 10)

/-- Decimal representation of a natural number, as Python prints it. -/
def natRepr (n : Nat) : List Char :=
  if n = 0 then ['0'] else ((natDigitsRev n n).map Nat.digitChar).reverse

/-- Decimal representation of an integer, as Python prints it. -/
def intRepr (n : Int) : List Char :=
  if n < 0 then '-' :: natRepr n.natAbs else natRepr n.toNat

/-- Minimal model of JSON string escaping: only the characters that must be
escaped to keep the quotes unambiguous.  (Only the surrounding quotes
matter to the sanitizer, which rejects `"` outright.) -/
def escapeChar (c : Char) : List Char :=
  if c = '"' ∨ c = '\\' then ['\\', c] else [c]

mutual
/-- `json.dumps` on the modelled fragment, with Python's default
separators (`", "` between array items).  Booleans serialize as
`true`/`false`, integer-valued floats as digits followed by `.0`. -/
def dumps : PyVal → List Char
  | .int n => intRepr n
  | .float n => intRepr n ++ ['.', '0']
  | .bool b => if b then "true".data else "false".data
  | .str s => '"' :: (s.data.map escapeChar).flatten ++ ['"']
  | .list xs => '[' :: dumpsElems xs ++ [']']
def dumpsElems : List PyVal → List Char
  | [] => []
  | [x] => dumps x
  | x :: y :: ys => dumps x ++ ',' :: ' ' :: dumpsElems (y :: ys)
end

/-- Worker for `replaceAll`; the fuel argument makes the recursion
structural (and so kernel-reducible) and is supplied as the input length,
which is ample because every step consumes at least one character of a
non-empty pattern. -/
def replaceGo (pat rep : List Char) : Nat → List Char → List Char
  | _, [] => []
  | 0, s => s
  | fuel + 1, c :: rest =>
    if pat ≠ [] ∧ pat.isPrefixOf (c :: rest) then
      rep ++ replaceGo pat rep fuel ((c :: rest).drop pat.length)
    else
      c :: replaceGo pat rep fuel rest

/-- Python `str.replace`: replace every leftmost non-overlapping occurrence
of `pat` by `rep`.  (Never called with an empty pattern.) -/
def replaceAll (pat rep s : List Char) : List Char :=
  replaceGo pat rep s.length s

/-- The boolean normalization from `_run_and_sanitize`:
`.replace("true","1").replace("false","0")`, in that order. -/
def normalizeBools (s : List Char) : List Char :=
  replaceAll "false".data "0".data (replaceAll "true".data "1".data s)

/-- The character classes admitted by `_UNSAFE_CHARS_RE`'s complement:
ASCII digits, comma, square brackets, whitespace and period.  (Python's
regex `\s` on ASCII text is space, tab, newline, carriage return, vertical
tab and form feed.) -/
def allowedChar (c : Char) : Bool :=
  c.isDigit || c = ',' || c = '[' || c = ']' || c = '.' ||
    c = ' ' || c = '\t' || c = '\n' || c = '\r' || c = '\x0b' || c = '\x0c'

/-- `_UNSAFE_CHARS_RE.search(dumped)` succeeds iff some character is
outside the allowed classes. -/
def hasUnsafeChar (s : List Char) : Bool := s.any (fun c => !allowedChar c)

/-- JSON whitespace, as skipped by `json.loads`. -/
def isJsonWs (c : Char) : Bool := c = ' ' || c = '\t' || c = '\n' || c = '\r'

/-- Skip leading JSON whitespace. -/
def skipWs : List Char → List Char
  | [] => []
  | c :: rest => if isJsonWs c then skipWs rest else c :: rest

/-- Numeric value of a decimal digit character. -/
def digitVal (c : Char) : Nat := c.toNat - '0'.toNat

/-- Value of a big-endian digit string. -/
def parseNatDigits (ds : List Char) : Nat :=
  ds.foldl (fun a c => a * 10 + digitVal c) 0

/-- Parse a JSON number at the head of the input.  Integer literals parse
to `PyVal.int`; a fraction part consisting of zeros parses to the
integer-valued `PyVal.float`.  (A non-integral fraction or an exponent is
outside the modelled float fragment; neither is produced by `dumps` on the
fragment, so neither reaches `loads` on the verified paths.) -/
def parseNum (s : List Char) : Option (PyVal × List Char) :=
  let neg := s.head? = some '-'
  let s1 := if neg then s.tail else s
  let ds := s1.takeWhile Char.isDigit
  if ds.isEmpty then none
  else
    let s2 := s1.drop ds.length
    let mag : Int := (parseNatDigits ds : Int)
    let v : Int := if neg then -mag else mag
    if s2.head? = some '.' then
      let fs := s2.tail.takeWhile Char.isDigit
      if fs.isEmpty then none
      else if fs.all (fun c => c = '0') then some (.float v, s2.tail.drop fs.length)
      else none
    else some (.int v, s2)

mutual
/-- Recursive-descent parser for the JSON fragment of arrays and numbers —
the whole grammar reachable behind the sanitizer (strings, objects,
`true`/`false`/`null` all contain characters the sanitizer rejects).
The fuel argument only bounds recursion depth; `loads` supplies ample
fuel. -/
def parseVal : Nat → List Char → Option (PyVal × List Char)
  | 0, _ => none
  | fuel + 1, s =>
    let s' := skipWs s
    if s'.head? = some '[' then
      if (skipWs s'.tail).head? = some ']' then some (.list [], (skipWs s'.tail).tail)
      else
        match parseVal fuel s'.tail with
        | some (v, rest2) =>
          match parseElemsRest fuel [v] rest2 with
          | some (vs, rest3) => some (.list vs, rest3)
          | none => none
        | none => none
    else parseNum s'
def parseElemsRest : Nat → List PyVal → List Char → Option (List PyVal × List Char)
  | 0, _, _ => none
  | fuel + 1, acc, s =>
    let s' := skipWs s
    if s'.head? = some ']' then some (acc.reverse, s'.tail)
    else if s'.head? = some ',' then
      match parseVal fuel s'.tail with
      | some (v, rest2) => parseElemsRest fuel (v :: acc) rest2
      | none => none
    else none
end

/-- `json.loads`: parse one value and require only whitespace to follow. -/
def loads (s : List Char) : Option PyVal :=
  match parseVal (2 * s.length + 2) s with
  | some (v, rest) => if (skipWs rest).isEmpty then some v else none
  | none => none

/-- A grid: the nested-list value held in task JSON (`List (List Int)`).
Rectangularity is stated as a hypothesis where a claim assumes it. -/
abbrev Grid := List (List Int)

/-- The grid as the `PyVal` that `json.loads` produces for it (and the value
`np.array(..., dtype=object)` is built from). -/
def gridVal (g : Grid) : PyVal :=
  .list (g.map (fun row => .list (row.map PyVal.int)))

/-- One step of numpy's shape discovery on an object-dtype frontier:
succeeds iff the frontier is non-empty and every entry is a list of one
common length, returning that length and the concatenated next frontier. -/
def collectRows (n : Nat) : List PyVal → Option (List PyVal)
  | [] => some []
  | .list l :: vs => if l.length = n then (collectRows n vs).map (fun rest => l ++ rest) else none
  | _ => none

/-- See `collectRows`; the common length is fixed by the first entry. -/
def allListsSameLen : List PyVal → Option (Nat × List PyVal)
  | [] => none
  | .list l :: vs => (collectRows l.length vs).map (fun rest => (l.length, l ++ rest))
  | _ => none

/-- numpy's shape discovery for `np.array(v, dtype=object)`: descend while
every entry of the current level is a sequence of one common length,
recording the common lengths as dimensions; stop otherwise.  Returns the
shape together with the flattened elements at that depth.  The fuel only
bounds the descent depth; `npArray` supplies `pvDepth v + 1`, which is
always sufficient. -/
def npIterate : Nat → List PyVal → List Nat × List PyVal
  | 0, fr => ([], fr)
  | fuel + 1, fr =>
    match allListsSameLen fr with
    | none => ([], fr)
    | some (d, next) =>
      let r := npIterate fuel next
      (d :: r.1, r.2)

/-- `np.array(v, dtype=object)`, abstracted to its shape and flattened
element list. -/
def npArray (v : PyVal) : List Nat × List PyVal :=
  npIterate (pvDepth v + 1) [v]

/-- `(a == b).all()` on two equal-shaped object arrays: elementwise Python
equality over the flattened elements (with the length equality that equal
shapes guarantee). -/
def npEqualAll (a b : List PyVal) : Bool :=
  a.length == b.length && (a.zip b).all (fun p => pyEq p.1 p.2)

/-- The comparison from `_verify_split` line 61:
`user_arr.shape == want_arr.shape and (user_arr == want_arr).all()`. -/
def npVerdict (u w : PyVal) : Bool :=
  let ua := npArray u
  let wa := npArray w
  ua.1 == wa.1 && npEqualAll ua.2 wa.2

/-- A solver callable `p`.  A Python-level exception during the call is the
`Except.error` case. -/
abbrev Solver := Grid → Except String PyVal

/-- `copy.deepcopy` on a grid value. -/
def deep_copy_grid (g : Grid) : Grid := g.map (fun row => row.map (fun z => z))

/-- `traceback.format_exc()` for an exception with message `e`: the trace
always begins with the non-empty fixed header. -/
def formatExc (e : String) : String :=
  "Traceback (most recent call last):\n" ++ e

/-- The sanitize-and-reparse tail of `_run_and_sanitize` (lines 47-51):
serialize, normalize booleans, reject unsafe characters, re-parse. -/
def sanitize_result (result : PyVal) : Except String PyVal :=
  let dumped := normalizeBools (dumps result)
  if hasUnsafeChar dumped then
    .error ("Invalid output from user code: " ++ String.mk (dumped.take 200))
  else
    match loads dumped with
    | some parsed => .ok parsed
    | none => .error "json.decoder.JSONDecodeError"

/-- `_run_and_sanitize(program, grid_in)`: run the solver on a deep copy of
the input and sanitize its return value.  The returned `PyVal` is the
`parsed` value that `np.array(parsed, dtype=object)` is applied to. -/
def run_and_sanitize (program : Solver) (grid_in : Grid) : Except String PyVal :=
  match program (deep_copy_grid grid_in) with
  | .error e => .error e
  | .ok result => sanitize_result result

/-- An example pair. -/
structure Pair where
  input : Grid
  output : Grid

/-- The diagnostic snapshot `first_wrong_detail` (`actual` is `none` on the
error path, where the Python code records `None`). -/
structure FailDetail where
  input : Grid
  expected : Grid
  actual : Option PyVal

/-- Accumulator loop of `_verify_split`: `right`/`wrong` counters, first
failure detail, first error trace. -/
def verifyLoop (program : Solver) :
    List Pair → Nat → Nat → Option FailDetail → String →
      Nat × Nat × Option FailDetail × String
  | [], right, wrong, detail, tb => (right, wrong, detail, tb)
  | ex :: rest, right, wrong, detail, tb =>
    match run_and_sanitize program ex.input with
    | .ok parsed =>
      if npVerdict parsed (gridVal ex.output) then
        verifyLoop program rest (right + 1) wrong detail tb
      else
        verifyLoop program rest right (wrong + 1)
          (if detail.isNone then some ⟨ex.input, ex.output, some parsed⟩ else detail) tb
    | .error e =>
      verifyLoop program rest right (wrong + 1)
        (if detail.isNone then some ⟨ex.input, ex.output, none⟩ else detail)
        (if tb = "" then formatExc e else tb)

/-- `_verify_split(program, pairs)`: per-pair verdicts with pass/fail
counts, first failure detail and first error trace. -/
def verify_split (program : Solver) (pairs : List Pair) :
    Nat × Nat × Option FailDetail × String :=
  verifyLoop program pairs 0 0 none ""

/-- `score_for_length(file_len_bytes, passed)` from `score.py`.  Python
floats on these values are exact; the result is modelled as a rational. -/
def score_for_length (file_len_bytes : Int) (passed : Bool) : Rat :=
  if !passed then 1 / 1000
  else
    let base : Int := 2500 - file_len_bytes
    if base > 1 then (base : Rat) else 1

/-- `_task_id_str` from `loader.py`: zero-pad the decimal id to width 3. -/
def task_id_str (taskId : Nat) : List Char :=
  List.leftpad 3 '0' (natRepr taskId)

/-- `os.path.basename` on a POSIX path string. -/
def basename (path : List Char) : List Char :=
  (path.splitOn '/').getLastD []

/-- The module identity used by `_import_solver_from` in
`compare_solutions.py` (line 116): `f"cmp_{os.path.basename(src_dir)}_{tid}"`. -/
def mod_name_from (srcDir : List Char) (taskId : Nat) : List Char :=
  "cmp_".data ++ basename srcDir ++ "_".data ++ task_id_str taskId

/-- The module identity used by `_import_solver` in `evaluator.py`
(line 24): `f"task{tid}"` (a single fixed submission folder). -/
def mod_name_submission (taskId : Nat) : List Char :=
  "task".data ++ task_id_str taskId

/-- The per-task record that both orchestrators produce (path fields
omitted; `exists` is `existsFile`). -/
structure TaskMeta where
  existsFile : Bool
  passed : Bool
  bytes : Int
  score : Rat
  agi_pass : Nat
  agi_fail : Nat
  gen_pass : Nat
  gen_fail : Nat
  error : String

/-- `_eval_one(task_id, file_exists)` from `eval_all.py` (lines 58-103):
the default record sets the per-split fail counts to the example counts
before the existence check; importing is passed in as an `Except` (file
byte count alongside the solver). -/
def eval_one_eval_all (file_exists : Bool) (agi_pairs gen_pairs : List Pair)
    (imp : Except String (Solver × Int)) : TaskMeta :=
  let meta : TaskMeta :=
    { existsFile := file_exists, passed := false, bytes := 0, score := 1 / 1000,
      agi_pass := 0, agi_fail := agi_pairs.length,
      gen_pass := 0, gen_fail := gen_pairs.length, error := "" }
  if file_exists = false then meta
  else
    match imp with
    | .error e => { meta with error := e }
    | .ok (program, nbytes) =>
      let a := verify_split program agi_pairs
      let g := verify_split program gen_pairs
      let passed_all := a.2.1 == 0 && g.2.1 == 0
      { meta with
        bytes := nbytes,
        score := score_for_length nbytes passed_all,
        passed := passed_all,
        agi_pass := a.1, agi_fail := a.2.1,
        gen_pass := g.1, gen_fail := g.2.1,
        error := if a.2.2.2 ≠ "" then a.2.2.2 else g.2.2.2 }

/-- `_eval_one(src_dir, task_id)` from `compare_solutions.py` (lines
142-179): the default record carries zero per-split counts and is returned
as-is when the artifact is absent (examples are only loaded afterwards). -/
def eval_one_compare (file_exists : Bool) (agi_pairs gen_pairs : List Pair)
    (imp : Except String (Solver × Int)) : TaskMeta :=
  let meta : TaskMeta :=
    { existsFile := false, passed := false, bytes := 0, score := 1 / 1000,
      agi_pass := 0, agi_fail := 0, gen_pass := 0, gen_fail := 0, error := "" }
  if file_exists = false then meta
  else
    let meta := { meta with existsFile := true }
    match imp with
    | .error e => { meta with error := e }
    | .ok (program, nbytes) =>
      let a := verify_split program agi_pairs
      let g := verify_split program gen_pairs
      let passed_all := a.2.1 == 0 && g.2.1 == 0
      { meta with
        passed := passed_all,
        bytes := nbytes,
        score := score_for_length nbytes passed_all,
        agi_pass := a.1, agi_fail := a.2.1,
        gen_pass := g.1, gen_fail := g.2.1 }

/-- Object store for the frame claim: grids live in numbered slots; the
repository's pairs hold slot references.  `copy.deepcopy` allocates a
fresh slot, so a solver mutating its argument in place can only write to
that fresh slot. -/
structure Store where
  grids : List Grid

/-- Read a slot. -/
def storeGet (s : Store) (r : Nat) : Grid := s.grids.getD r []

/-- `copy.deepcopy(grid_in)`: allocate a fresh slot holding a copy of the
referenced grid, returning the new store and the fresh reference. -/
def alloc_copy (s : Store) (r : Nat) : Store × Nat :=
  (⟨s.grids ++ [deep_copy_grid (storeGet s r)]⟩, s.grids.length)

/-- A solver with an observable in-place mutation: invoking it on an
argument object both rewrites that object (`mutate`) and produces a return
value or exception (`output`). -/
structure MutSolver where
  mutate : Grid → Grid
  output : Grid → Except String PyVal

/-- `_run_and_sanitize` over the store: deep-copy the referenced input into
a fresh slot, invoke the solver on it (applying its in-place mutation to
the fresh slot only), then sanitize the returned value. -/
def run_and_sanitize_st (sol : MutSolver) (s : Store) (rIn : Nat) :
    Store × Except String PyVal :=
  let copied := alloc_copy s rIn
  let arg := storeGet copied.1 copied.2
  let s2 : Store := ⟨copied.1.grids.set copied.2 (sol.mutate arg)⟩
  (s2,
    match sol.output arg with
    | .error e => .error e
    | .ok result => sanitize_result result)

/-- `_verify_split` over the store: pairs hold a reference to the stored
input grid and the expected output value. -/
def verify_split_st (sol : MutSolver) :
    List (Nat × Grid) → Store → Store × Nat × Nat
  | [], s => (s, 0, 0)
  | (r, want) :: rest, s =>
    let step := run_and_sanitize_st sol s r
    let tail := verify_split_st sol rest step.1
    match step.2 with
    | .ok parsed =>
      if npVerdict parsed (gridVal want) then (tail.1, tail.2.1 + 1, tail.2.2)
      else (tail.1, tail.2.1, tail.2.2 + 1)
    | .error _ => (tail.1, tail.2.1, tail.2.2 + 1)

/-- Discriminator for list values (Python sequences, for numpy's shape
discovery). -/
def isList : PyVal → Bool
  | .list _ => true
  | _ => false

/-- Contents of a list value (used to state what `collectRows`
concatenates). -/
def unlist : PyVal → List PyVal
  | .list l => l
  | _ => []

/-- The concatenated next frontier. -/
def joinRows (vs : List PyVal) : List PyVal := (vs.map unlist).flatten

/-- Structural row equality as the spec words it: the result row is a
sequence with the same column count as the expected row and numerically
equal cells. -/
def specRowEqB (rv : PyVal) (wrow : List Int) : Bool :=
  match rv with
  | .list cells =>
    cells.length == wrow.length && (cells.zip wrow).all fun q => pyEq q.1 (.int q.2)
  | _ => false

/-- Structural grid equality as the spec words it (the spec-side
description of step 4's comparison, against which the numpy comparison is
checked): identical row count, identical column count for every
corresponding row, and every corresponding cell numerically equal. -/
def specGridEqB (result : PyVal) (want : Grid) : Bool :=
  match result with
  | .list rows =>
    rows.length == want.length && (rows.zip want).all fun p => specRowEqB p.1 p.2
  | _ => false

/-- A numeric atom of the serializable grid fragment: a non-negative
integer or a non-negative integer-valued float. -/
def NumAtom (a : PyVal) : Prop :=
  (∃ m : Nat, a = .int (m : Int)) ∨ (∃ m : Nat, a = .float (m : Int))

/-- A row value of the serializable grid fragment. -/
def GoodRow (v : PyVal) : Prop :=
  ∃ cells, v = .list cells ∧ ∀ a ∈ cells, NumAtom a

/-- What may follow a serialized value inside a serialized grid: the end of
input, a separating comma, or a closing bracket. -/
def SepHead (s : List Char) : Prop :=
  s = [] ∨ (∃ t, s = ',' :: t) ∨ (∃ t, s = ']' :: t)

/-- The text after the first element of a serialized list: `", "`-separated
remaining elements. -/
def sepTail : List PyVal → List Char
  | [] => []
  | x :: xs => ',' :: ' ' :: dumps x ++ sepTail xs

/-- Parser fuel needed per serialized row (used to bound the fuel `loads`
must supply). -/
def valCost (v : PyVal) : Nat :=
  match v with
  | .list cells => cells.length + 3
  | _ => 2

/-- Parser fuel needed for a serialized list of rows. -/
def rowsFuel (vs : List PyVal) : Nat := (vs.map valCost).sum

lemma formatExc_ne_empty (e : String) : formatExc e ≠ "" := by
  intro h
  have h2 : "Traceback (most recent call last):\n".length + e.length = 0 := by
    simpa [formatExc, String.length_append] using congrArg String.length h
  have h3 : "Traceback (most recent call last):\n".length = 35 := rfl
  omega

/-- C3: for every integer byte length, a passing score is exactly
`max 1 (2500 - byte_length)` (with the cited instances `100 ↦ 2400` and
`3000 ↦ 1`), a failing score is `0.001` regardless of byte length, and
every passing score strictly exceeds every failing score. -/
theorem C3_score_formula :
    (∀ len : Int, score_for_length len true = max 1 ((2500 : Rat) - (len : Rat)))
    ∧ score_for_length 100 true = 2400
    ∧ score_for_length 3000 true = 1
    ∧ (∀ len : Int, score_for_length len false = 1 / 1000)
    ∧ (∀ len1 len2 : Int,
        score_for_length len1 false < score_for_length len2 true) := by
  have hpass : ∀ len : Int,
      score_for_length len true = max 1 ((2500 : Rat) - (len : Rat)) := by
    intro len
    simp only [score_for_length, Bool.not_true, Bool.false_eq_true, if_false]
    by_cases hb : (2500 - len : Int) > 1
    · rw [if_pos hb]
      have hcast : ((2500 - len : Int) : Rat) = (2500 : Rat) - (len : Rat) := by
        push_cast; ring
      rw [hcast, max_eq_right]
      have : (1 : Int) ≤ 2500 - len := hb.le
      calc (1 : Rat) ≤ ((2500 - len : Int) : Rat) := by exact_mod_cast this
        _ = (2500 : Rat) - (len : Rat) := hcast
    · rw [if_neg hb, max_eq_left]
      have h1 : (2500 - len : Int) ≤ 1 := not_lt.mp hb
      calc (2500 : Rat) - (len : Rat) = ((2500 - len : Int) : Rat) := by push_cast; ring
        _ ≤ 1 := by exact_mod_cast h1
  refine ⟨hpass, ?_, ?_, fun _ => rfl, ?_⟩
  · rw [hpass]; norm_num
  · rw [hpass]; norm_num
  · intro l1 l2
    calc score_for_length l1 false = 1 / 1000 := rfl
      _ < 1 := by norm_num
      _ ≤ max 1 ((2500 : Rat) - (l2 : Rat)) := le_max_left _ _
      _ = score_for_length l2 true := (hpass l2).symm

lemma verifyLoop_total (program : Solver) :
    ∀ (pairs : List Pair) (r w : Nat) (d : Option FailDetail) (tb : String),
      (verifyLoop program pairs r w d tb).1 +
        (verifyLoop program pairs r w d tb).2.1 = r + w + pairs.length := by
  intro pairs
  induction pairs with
  | nil => intro r w d tb; simp [verifyLoop]
  | cons ex rest ih =>
    intro r w d tb
    cases h : run_and_sanitize program ex.input with
    | ok parsed =>
      simp only [verifyLoop, h]
      by_cases hv : npVerdict parsed (gridVal ex.output) = true
      · rw [if_pos hv, ih]; simp only [List.length_cons]; omega
      · rw [if_neg hv, ih]; simp only [List.length_cons]; omega
    | error e =>
      simp only [verifyLoop, h]
      rw [ih]; simp only [List.length_cons]; omega

/-- C9: an empty pair sequence verifies to exactly `(0, 0, None, "")`, and
for every solver and pair sequence each pair receives exactly one verdict:
`pass_count + fail_count = len(pairs)`. -/
theorem C9_empty_and_exactly_once :
    (∀ program : Solver, verify_split program [] = (0, 0, none, ""))
    ∧ (∀ (program : Solver) (pairs : List Pair),
        (verify_split program pairs).1 + (verify_split program pairs).2.1 =
          pairs.length) :=
  ⟨fun _ => rfl, fun program pairs => by
    simpa using verifyLoop_total program pairs 0 0 none ""⟩

lemma verifyLoop_err_const (e : String) :
    ∀ (rest : List Pair) (r w : Nat) (d : FailDetail) (tb : String), tb ≠ "" →
      verifyLoop (fun _ => Except.error e) rest r w (some d) tb =
        (r, w + rest.length, some d, tb) := by
  intro rest
  induction rest with
  | nil => intro r w d tb _; simp [verifyLoop]
  | cons ex rest ih =>
    intro r w d tb htb
    have hrun : run_and_sanitize (fun _ => Except.error e) ex.input = .error e := rfl
    simp only [verifyLoop, hrun, Option.isNone_some, Bool.false_eq_true, if_false,
      if_neg htb]
    rw [ih r (w + 1) d tb htb]
    simp only [List.length_cons]
    have : w + 1 + rest.length = w + (rest.length + 1) := by omega
    rw [this]

/-- C4: a solver that raises on every invocation never lets the fault
escape `_verify_split`: every pair is counted as a fail, passes are zero,
the first error's (non-empty) trace is recorded, and the first pair's
diagnostic snapshot carries `actual = None`. -/
theorem C4_crash_boundary (e : String) (pairs : List Pair) (hne : pairs ≠ []) :
    verify_split (fun _ => Except.error e) pairs =
      (0, pairs.length,
        some ⟨(pairs.head hne).input, (pairs.head hne).output, none⟩, formatExc e)
    ∧ formatExc e ≠ "" := by
  refine ⟨?_, formatExc_ne_empty e⟩
  cases pairs with
  | nil => exact absurd rfl hne
  | cons ex rest =>
    have hrun : run_and_sanitize (fun _ => Except.error e) ex.input = .error e := rfl
    show verifyLoop _ (ex :: rest) 0 0 none "" = _
    simp only [verifyLoop, hrun, Option.isNone_none, if_true, if_pos rfl]
    rw [verifyLoop_err_const e rest 0 1 _ _ (formatExc_ne_empty e)]
    simp [List.length_cons, Nat.add_comm]

/-- C4 witness: the boundary theorem evaluated at a one-pair sequence. -/
theorem C4_crash_boundary_witness :
    verify_split (fun _ => Except.error "boom") [⟨[[0]], [[0]]⟩] =
      (0, 1, some ⟨[[0]], [[0]], none⟩, formatExc "boom")
    ∧ formatExc "boom" ≠ "" :=
  C4_crash_boundary "boom" [⟨[[0]], [[0]]⟩] (List.cons_ne_nil _ _)

/-- C2: whenever the normalized serialization of a solver's return value
contains a character outside digits, commas, brackets, whitespace and
periods, `_run_and_sanitize` raises `InvalidOutput` instead of reaching
the comparison, and `_verify_split` counts the pair as a fail with the
error trace recorded and `actual = None` in the snapshot (not an
`Incorrect` comparison verdict), letting no fault escape. -/
theorem C2_sanitizer_rejects (result : PyVal) (g want : Grid)
    (h : hasUnsafeChar (normalizeBools (dumps result)) = true) :
    run_and_sanitize (fun _ => Except.ok result) g =
      .error ("Invalid output from user code: " ++
        String.mk ((normalizeBools (dumps result)).take 200))
    ∧ verify_split (fun _ => Except.ok result) [⟨g, want⟩] =
        (0, 1, some ⟨g, want, none⟩,
          formatExc ("Invalid output from user code: " ++
            String.mk ((normalizeBools (dumps result)).take 200)))
    ∧ formatExc ("Invalid output from user code: " ++
        String.mk ((normalizeBools (dumps result)).take 200)) ≠ "" := by
  have hrun : run_and_sanitize (fun _ => Except.ok result) g =
      .error ("Invalid output from user code: " ++
        String.mk ((normalizeBools (dumps result)).take 200)) := by
    simp [run_and_sanitize, sanitize_result, h]
  refine ⟨hrun, ?_, formatExc_ne_empty _⟩
  show verifyLoop _ [⟨g, want⟩] 0 0 none "" = _
  simp only [verifyLoop, hrun, Option.isNone_none, if_true, if_pos rfl]

/-- C2 witness: a solver returning `[["a"]]` is classified as an execution
error by the sanitizer. -/
theorem C2_sanitizer_rejects_witness :
    run_and_sanitize (fun _ => Except.ok (.list [.list [.str "a"]])) [[0]] =
      .error ("Invalid output from user code: " ++
        String.mk ((normalizeBools (dumps (.list [.list [.str "a"]]))).take 200))
    ∧ verify_split (fun _ => Except.ok (.list [.list [.str "a"]])) [⟨[[0]], [[0]]⟩] =
        (0, 1, some ⟨[[0]], [[0]], none⟩,
          formatExc ("Invalid output from user code: " ++
            String.mk ((normalizeBools (dumps (.list [.list [.str "a"]]))).take 200)))
    ∧ formatExc ("Invalid output from user code: " ++
        String.mk ((normalizeBools (dumps (.list [.list [.str "a"]]))).take 200)) ≠ "" :=
  C2_sanitizer_rejects (.list [.list [.str "a"]]) [[0]] [[0]] (by rfl)

lemma natDigitsRev_eq_digits : ∀ (fuel n : Nat), n ≤ fuel →
    natDigitsRev fuel n = Nat.digits 10 n := by
  intro fuel
  induction fuel with
  | zero =>
    intro n h
    interval_cases n
    simp [natDigitsRev, Nat.digits_zero]
  | succ f ih =>
    intro n h
    by_cases hn : n = 0
    · subst hn; simp [natDigitsRev, Nat.digits_zero]
    · have hpos : 0 < n := Nat.pos_of_ne_zero hn
      have hdiv : n / 10 ≤ f := by
        have : n / 10 < n := Nat.div_lt_self hpos (by norm_num)
        omega
      simp only [natDigitsRev, if_neg hn]
      rw [ih _ hdiv, Nat.digits_def' (by norm_num : 1 < 10) hpos]

lemma digitVal_digitChar : ∀ d < 10, digitVal (Nat.digitChar d) = d := by decide

lemma isDigit_digitChar : ∀ d < 10, (Nat.digitChar d).isDigit = true := by decide

lemma foldl_rev_digits : ∀ (L : List Nat), (∀ d ∈ L, d < 10) → ∀ a : Nat,
    ((L.map Nat.digitChar).reverse).foldl (fun x c => x * 10 + digitVal c) a =
      a * 10 ^ L.length + Nat.ofDigits 10 L := by
  intro L
  induction L with
  | nil => intro _ a; simp [Nat.ofDigits_nil]
  | cons d L' ih =>
    intro hL a
    have hd : d < 10 := hL d (List.mem_cons_self _ _)
    have hL' : ∀ x ∈ L', x < 10 := fun x hx => hL x (List.mem_cons_of_mem _ hx)
    simp only [List.map_cons, List.reverse_cons, List.foldl_append, List.foldl_cons,
      List.foldl_nil]
    rw [ih hL', digitVal_digitChar d hd, Nat.ofDigits_cons]
    simp only [List.length_cons]
    rw [pow_succ]
    ring

lemma parseNatDigits_natRepr (n : Nat) : parseNatDigits (natRepr n) = n := by
  by_cases hn : n = 0
  · subst hn; rfl
  · unfold natRepr parseNatDigits
    rw [if_neg hn, natDigitsRev_eq_digits n n le_rfl,
      foldl_rev_digits _ (fun d hd => Nat.digits_lt_base (by norm_num) hd) 0]
    simp [Nat.ofDigits_digits]

lemma natRepr_all_digits (n : Nat) : ∀ c ∈ natRepr n, c.isDigit = true := by
  intro c hc
  unfold natRepr at hc
  by_cases hn : n = 0
  · rw [if_pos hn] at hc
    simp only [List.mem_singleton] at hc
    subst hc; decide
  · rw [if_neg hn, natDigitsRev_eq_digits n n le_rfl] at hc
    simp only [List.mem_reverse, List.mem_map] at hc
    obtain ⟨d, hd, rfl⟩ := hc
    exact isDigit_digitChar d (Nat.digits_lt_base (by norm_num) hd)

lemma natRepr_ne_nil (n : Nat) : natRepr n ≠ [] := by
  unfold natRepr
  by_cases hn : n = 0
  · rw [if_pos hn]; simp
  · rw [if_neg hn, natDigitsRev_eq_digits n n le_rfl]
    simp [Nat.digits_ne_nil_iff_ne_zero.mpr hn]

lemma parseNatDigits_replicate_zero (k : Nat) (ds : List Char) :
    parseNatDigits (List.replicate k '0' ++ ds) = parseNatDigits ds := by
  induction k with
  | zero => rfl
  | succ k ih =>
    simp only [List.replicate_succ, List.cons_append]
    exact ih

lemma parseNatDigits_task_id_str (n : Nat) : parseNatDigits (task_id_str n) = n := by
  unfold task_id_str List.leftpad
  rw [parseNatDigits_replicate_zero, parseNatDigits_natRepr]

lemma task_id_str_all_digits (n : Nat) : ∀ c ∈ task_id_str n, c.isDigit = true := by
  intro c hc
  unfold task_id_str List.leftpad at hc
  rcases List.mem_append.mp hc with hrep | hrepr
  · rw [List.eq_of_mem_replicate hrep]; decide
  · exact natRepr_all_digits n c hrepr

lemma task_id_str_no_underscore (n : Nat) : '_' ∉ task_id_str n := by
  intro hmem
  have := task_id_str_all_digits n '_' hmem
  exact absurd this (by decide)

lemma append_sep_inj_left :
    ∀ (a1 a2 b1 b2 : List Char), a1 ++ '_' :: b1 = a2 ++ '_' :: b2 →
      '_' ∉ a1 → '_' ∉ a2 → a1 = a2 ∧ b1 = b2 := by
  intro a1
  induction a1 with
  | nil =>
    intro a2 b1 b2 h h1 h2
    cases a2 with
    | nil => simpa using h
    | cons c a2' =>
      simp only [List.nil_append, List.cons_append, List.cons.injEq] at h
      exact absurd (h.1 ▸ List.mem_cons_self c a2') h2
  | cons c a1' ih =>
    intro a2 b1 b2 h h1 h2
    cases a2 with
    | nil =>
      simp only [List.cons_append, List.nil_append, List.cons.injEq] at h
      exact absurd (h.1 ▸ List.mem_cons_self c a1') h1
    | cons c' a2' =>
      simp only [List.cons_append, List.cons.injEq] at h
      obtain ⟨hc, ht⟩ := h
      have h1' : '_' ∉ a1' := fun hm => h1 (List.mem_cons_of_mem _ hm)
      have h2' : '_' ∉ a2' := fun hm => h2 (List.mem_cons_of_mem _ hm)
      obtain ⟨hA, hB⟩ := ih a2' b1 b2 ht h1' h2'
      exact ⟨by rw [hc, hA], hB⟩

lemma append_sep_inj_right (u1 u2 v1 v2 : List Char)
    (h : u1 ++ '_' :: v1 = u2 ++ '_' :: v2) (h1 : '_' ∉ v1) (h2 : '_' ∉ v2) :
    u1 = u2 ∧ v1 = v2 := by
  have hrev := congrArg List.reverse h
  simp only [List.reverse_append, List.reverse_cons, List.append_assoc,
    List.singleton_append] at hrev
  have h1' : '_' ∉ v1.reverse := by simpa using h1
  have h2' : '_' ∉ v2.reverse := by simpa using h2
  obtain ⟨hv, hu⟩ := append_sep_inj_left _ _ _ _ hrev h1' h2'
  exact ⟨List.reverse_inj.mp hu, List.reverse_inj.mp hv⟩

/-- C7 counterexample: two distinct source directories that share a
basename are assigned the same module identity for the same task id by
`_import_solver_from`. -/
theorem C7_counterexample :
    mod_name_from "a/sub".data 5 = mod_name_from "b/sub".data 5
    ∧ "a/sub".data ≠ "b/sub".data :=
  ⟨rfl, by decide⟩

/-- C7 amended: the loader identities are keyed by the basename of the
source directory together with the task id (not by the full source
directory): `_import_solver_from` names collide only when both the
basenames and the task ids coincide, and `_import_solver` names (single
fixed submission folder) collide only when the task ids coincide. -/
theorem C7_amended_keying :
    (∀ (d1 d2 : List Char) (t1 t2 : Nat),
        mod_name_from d1 t1 = mod_name_from d2 t2 →
          basename d1 = basename d2 ∧ t1 = t2)
    ∧ (∀ t1 t2 : Nat,
        mod_name_submission t1 = mod_name_submission t2 → t1 = t2) := by
  constructor
  · intro d1 d2 t1 t2 h
    unfold mod_name_from at h
    simp only [List.append_assoc] at h
    have h0 : basename d1 ++ ("_".data ++ task_id_str t1) =
        basename d2 ++ ("_".data ++ task_id_str t2) := List.append_cancel_left h
    have hdata : "_".data = ['_'] := rfl
    simp only [hdata, List.singleton_append] at h0
    obtain ⟨hb, ht⟩ := append_sep_inj_right _ _ _ _ h0
      (task_id_str_no_underscore t1) (task_id_str_no_underscore t2)
    refine ⟨hb, ?_⟩
    have := congrArg parseNatDigits ht
    rwa [parseNatDigits_task_id_str, parseNatDigits_task_id_str] at this
  · intro t1 t2 h
    unfold mod_name_submission at h
    have ht := List.append_cancel_left h
    have := congrArg parseNatDigits ht
    rwa [parseNatDigits_task_id_str, parseNatDigits_task_id_str] at this

/-- C7 witness: the amended keying theorem applied at two directories with
equal basenames and at equal task ids. -/
theorem C7_amended_keying_witness :
    (basename "x/s".data = basename "y/s".data ∧ (7 : Nat) = 7)
    ∧ (9 : Nat) = 9 :=
  ⟨C7_amended_keying.1 "x/s".data "y/s".data 7 7 (by rfl),
    C7_amended_keying.2 9 9 (by rfl)⟩

/-- C8 counterexample: `compare_solutions._eval_one` returns its default
record as soon as the artifact is absent, so the per-split fail counts
stay at zero even for a task with one example pair. -/
theorem C8_counterexample :
    (eval_one_compare false [⟨[[0]], [[0]]⟩] [] (.error "unused")).agi_fail = 0
    ∧ ([(⟨[[0]], [[0]]⟩ : Pair)].length = 1) ∧ (0 : Nat) ≠ 1 :=
  ⟨rfl, rfl, by decide⟩

/-- C8 amended: for a missing artifact both orchestrators record
`exists=false`, `passed=false`, `score=0.001`, `bytes=0` with zero pass
counts; `eval_all._eval_one` sets the per-split fail counts to the task's
example counts, while `compare_solutions._eval_one` leaves every per-split
count at zero. -/
theorem C8_amended_missing_defaults :
    (∀ (agi gen : List Pair) (imp : Except String (Solver × Int)),
      eval_one_eval_all false agi gen imp =
        { existsFile := false, passed := false, bytes := 0, score := 1 / 1000,
          agi_pass := 0, agi_fail := agi.length,
          gen_pass := 0, gen_fail := gen.length, error := "" })
    ∧ (∀ (agi gen : List Pair) (imp : Except String (Solver × Int)),
      eval_one_compare false agi gen imp =
        { existsFile := false, passed := false, bytes := 0, score := 1 / 1000,
          agi_pass := 0, agi_fail := 0,
          gen_pass := 0, gen_fail := 0, error := "" }) :=
  ⟨fun _ _ _ => rfl, fun _ _ _ => rfl⟩

lemma run_and_sanitize_st_length (sol : MutSolver) (s : Store) (r : Nat) :
    (run_and_sanitize_st sol s r).1.grids.length = s.grids.length + 1 := by
  simp [run_and_sanitize_st, alloc_copy]

lemma run_and_sanitize_st_frame (sol : MutSolver) (s : Store) (r : Nat) :
    ∀ i < s.grids.length,
      (run_and_sanitize_st sol s r).1.grids.getD i [] = s.grids.getD i [] := by
  intro i hi
  show ((s.grids ++ [deep_copy_grid (storeGet s r)]).set s.grids.length _).getD i [] = _
  rw [List.getD_eq_getElem?_getD, List.getD_eq_getElem?_getD]
  rw [List.getElem?_set_ne (by omega)]
  rw [List.getElem?_append_left hi]

lemma verify_split_st_store (sol : MutSolver) (r : Nat) (want : Grid)
    (rest : List (Nat × Grid)) (s : Store) :
    (verify_split_st sol ((r, want) :: rest) s).1 =
      (verify_split_st sol rest (run_and_sanitize_st sol s r).1).1 := by
  simp only [verify_split_st]
  cases (run_and_sanitize_st sol s r).2 with
  | ok parsed => by_cases hv : npVerdict parsed (gridVal want) = true <;> simp [hv]
  | error e => rfl

lemma verify_split_st_frame (sol : MutSolver) :
    ∀ (pairs : List (Nat × Grid)) (s : Store) (i : Nat), i < s.grids.length →
      (verify_split_st sol pairs s).1.grids.getD i [] = s.grids.getD i [] := by
  intro pairs
  induction pairs with
  | nil => intro s i _; rfl
  | cons p rest ih =>
    intro s i hi
    obtain ⟨r, want⟩ := p
    rw [verify_split_st_store]
    have hlen : i < (run_and_sanitize_st sol s r).1.grids.length := by
      rw [run_and_sanitize_st_length]; omega
    rw [ih _ i hlen, run_and_sanitize_st_frame sol s r i hi]

/-- C6: the verifier passes each solver invocation a deep copy of the
pair's input allocated in a fresh slot, so even a solver that mutates its
argument in place leaves every grid the repository holds (every
previously-allocated slot, in particular every pair's input slot)
unchanged after the whole verification run; no mutation is observable
across calls on the same example, as each call copies from the unchanged
original. -/
theorem C6_deepcopy_frame (sol : MutSolver) (s : Store)
    (pairs : List (Nat × Grid)) :
    (∀ i < s.grids.length,
      (verify_split_st sol pairs s).1.grids.getD i [] = s.grids.getD i [])
    ∧ (∀ p ∈ pairs, p.1 < s.grids.length →
        storeGet (verify_split_st sol pairs s).1 p.1 = storeGet s p.1) := by
  refine ⟨fun i hi => verify_split_st_frame sol pairs s i hi, ?_⟩
  intro p _ hp
  exact verify_split_st_frame sol pairs s p.1 hp

/-- C6 witness: a solver that overwrites its argument in place cannot
change the repository's stored input grid. -/
theorem C6_deepcopy_frame_witness :
    storeGet (verify_split_st
        (⟨fun _ => [[9]], fun g => Except.ok (gridVal g)⟩ : MutSolver)
        [(0, [[0]])] (⟨[[[0]]]⟩ : Store)).1 0 =
      storeGet (⟨[[[0]]]⟩ : Store) 0 :=
  (C6_deepcopy_frame (⟨fun _ => [[9]], fun g => Except.ok (gridVal g)⟩ : MutSolver)
      (⟨[[[0]]]⟩ : Store) [(0, [[0]])]).2
    (0, [[0]]) (List.mem_singleton.mpr rfl) (by decide)

lemma pvSize_pos (v : PyVal) : 1 ≤ pvSize v := by
  cases v <;> simp [pvSize]

lemma pvSize_mem {x : PyVal} : ∀ {xs : List PyVal}, x ∈ xs → pvSize x ≤ pvSizeList xs := by
  intro xs
  induction xs with
  | nil => intro h; cases h
  | cons y ys ih =>
    intro h
    rcases List.mem_cons.mp h with rfl | hmem
    · simp [pvSizeList]
    · have := ih hmem
      simp only [pvSizeList]
      omega

lemma pyEqList_refl_aux : ∀ xs : List PyVal, (∀ x ∈ xs, pyEq x x = true) →
    pyEqList xs xs = true := by
  intro xs
  induction xs with
  | nil => intro _; rfl
  | cons x xs ih =>
    intro h
    simp only [pyEqList, Bool.and_eq_true]
    exact ⟨h x (List.mem_cons_self _ _), ih fun y hy => h y (List.mem_cons_of_mem _ hy)⟩

lemma pyEq_refl (v : PyVal) : pyEq v v = true := by
  have main : ∀ n v, pvSize v ≤ n → pyEq v v = true := by
    intro n
    induction n with
    | zero => intro v hv; have := pvSize_pos v; omega
    | succ n ih =>
      intro v hv
      cases v with
      | int a => simp [pyEq]
      | float a => simp [pyEq]
      | bool a => simp [pyEq]
      | str a => simp [pyEq]
      | list xs =>
        show pyEqList xs xs = true
        refine pyEqList_refl_aux xs fun x hx => ih x ?_
        have h1 := pvSize_mem hx
        have h2 : pvSize (.list xs) = 1 + pvSizeList xs := rfl
        omega
  exact main (pvSize v) v le_rfl

lemma npEqualAll_self (l : List PyVal) : npEqualAll l l = true := by
  simp only [npEqualAll, beq_self_eq_true, Bool.true_and, List.all_eq_true]
  intro p hp
  have := List.of_mem_zip hp
  have hz : p.1 = p.2 := by
    clear this
    induction l with
    | nil => cases hp
    | cons x xs ih =>
      rcases List.mem_cons.mp hp with h | h
      · rw [h]
      · exact ih h
  rw [hz]; exact pyEq_refl p.2

lemma npVerdict_refl (v : PyVal) : npVerdict v v = true := by
  simp [npVerdict, npEqualAll_self]

lemma collectRows_some_iff : ∀ (vs : List PyVal) (n : Nat) (tj : List PyVal),
    collectRows n vs = some tj ↔
      ((∀ v ∈ vs, ∃ l, v = .list l ∧ l.length = n) ∧ tj = joinRows vs) := by
  intro vs
  induction vs with
  | nil =>
    intro n tj
    simp [collectRows, joinRows, eq_comm]
  | cons v vs ih =>
    intro n tj
    cases v with
    | list l =>
      by_cases hl : l.length = n
      · simp only [collectRows, if_pos hl, Option.map_eq_some', ih]
        constructor
        · rintro ⟨rest, ⟨hall, rfl⟩, rfl⟩
          refine ⟨?_, ?_⟩
          · intro w hw
            rcases List.mem_cons.mp hw with rfl | hmem
            · exact ⟨l, rfl, hl⟩
            · exact hall w hmem
          · simp [joinRows, unlist]
        · rintro ⟨hall, rfl⟩
          refine ⟨joinRows vs, ⟨fun w hw => hall w (List.mem_cons_of_mem _ hw), rfl⟩, ?_⟩
          simp [joinRows, unlist]
      · simp only [collectRows, if_neg hl]
        constructor
        · intro h; cases h
        · rintro ⟨hall, _⟩
          obtain ⟨l', hl', hlen⟩ := hall (.list l) (List.mem_cons_self _ _)
          cases hl'
          exact absurd hlen hl
    | int a =>
      simp only [collectRows]
      constructor
      · intro h; cases h
      · rintro ⟨hall, _⟩
        obtain ⟨l', hl', _⟩ := hall (.int a) (List.mem_cons_self _ _)
        cases hl'
    | float a =>
      simp only [collectRows]
      constructor
      · intro h; cases h
      · rintro ⟨hall, _⟩
        obtain ⟨l', hl', _⟩ := hall (.float a) (List.mem_cons_self _ _)
        cases hl'
    | bool a =>
      simp only [collectRows]
      constructor
      · intro h; cases h
      · rintro ⟨hall, _⟩
        obtain ⟨l', hl', _⟩ := hall (.bool a) (List.mem_cons_self _ _)
        cases hl'
    | str a =>
      simp only [collectRows]
      constructor
      · intro h; cases h
      · rintro ⟨hall, _⟩
        obtain ⟨l', hl', _⟩ := hall (.str a) (List.mem_cons_self _ _)
        cases hl'

lemma allLists_some_iff (fr : List PyVal) (d : Nat) (next : List PyVal) :
    allListsSameLen fr = some (d, next) ↔
      (fr ≠ [] ∧ (∀ v ∈ fr, ∃ l, v = .list l ∧ l.length = d) ∧ next = joinRows fr) := by
  cases fr with
  | nil => simp [allListsSameLen]
  | cons v vs =>
    cases v with
    | list l =>
      simp only [allListsSameLen, Option.map_eq_some']
      constructor
      · rintro ⟨rest, hrest, heq⟩
        obtain ⟨hall, rfl⟩ := (collectRows_some_iff vs l.length rest).mp hrest
        have hd : l.length = d := (Prod.mk.injEq _ _ _ _).mp heq |>.1
        have hnext : next = l ++ joinRows vs := ((Prod.mk.injEq _ _ _ _).mp heq).2.symm
        refine ⟨List.cons_ne_nil _ _, ?_, ?_⟩
        · intro w hw
          rcases List.mem_cons.mp hw with rfl | hmem
          · exact ⟨l, rfl, hd⟩
          · obtain ⟨l', hl', hlen⟩ := hall w hmem
            exact ⟨l', hl', by rw [hlen, hd]⟩
        · rw [hnext]; simp [joinRows, unlist]
      · rintro ⟨_, hall, rfl⟩
        obtain ⟨l0, hl0, hlen0⟩ := hall (.list l) (List.mem_cons_self _ _)
        cases hl0
        refine ⟨joinRows vs, ?_, ?_⟩
        · exact (collectRows_some_iff vs l.length (joinRows vs)).mpr
            ⟨fun w hw => by
              obtain ⟨l', hl', hlen'⟩ := hall w (List.mem_cons_of_mem _ hw)
              exact ⟨l', hl', by rw [hlen', hlen0]⟩, rfl⟩
        · rw [hlen0]; simp [joinRows, unlist]
    | int a =>
      simp only [allListsSameLen]
      constructor
      · intro h; cases h
      · rintro ⟨_, hall, _⟩
        obtain ⟨l', hl', _⟩ := hall (.int a) (List.mem_cons_self _ _); cases hl'
    | float a =>
      simp only [allListsSameLen]
      constructor
      · intro h; cases h
      · rintro ⟨_, hall, _⟩
        obtain ⟨l', hl', _⟩ := hall (.float a) (List.mem_cons_self _ _); cases hl'
    | bool a =>
      simp only [allListsSameLen]
      constructor
      · intro h; cases h
      · rintro ⟨_, hall, _⟩
        obtain ⟨l', hl', _⟩ := hall (.bool a) (List.mem_cons_self _ _); cases hl'
    | str a =>
      simp only [allListsSameLen]
      constructor
      · intro h; cases h
      · rintro ⟨_, hall, _⟩
        obtain ⟨l', hl', _⟩ := hall (.str a) (List.mem_cons_self _ _); cases hl'

lemma allLists_atom_head (v : PyVal) (hv : isList v = false) (vs : List PyVal) :
    allListsSameLen (v :: vs) = none := by
  cases v <;> first
    | rfl
    | (exact absurd hv (by simp [isList]))

lemma pvDepthList_le_of_forall {xs : List PyVal} {k : Nat}
    (h : ∀ x ∈ xs, pvDepth x ≤ k) : pvDepthList xs ≤ k := by
  induction xs with
  | nil => simp [pvDepthList]
  | cons x xs ih =>
    simp only [pvDepthList, max_le_iff]
    exact ⟨h x (List.mem_cons_self _ _), ih fun y hy => h y (List.mem_cons_of_mem _ hy)⟩

lemma pvDepthList_mem {x : PyVal} {xs : List PyVal} (h : x ∈ xs) :
    pvDepth x ≤ pvDepthList xs := by
  induction xs with
  | nil => cases h
  | cons y ys ih =>
    rcases List.mem_cons.mp h with rfl | hmem
    · simp [pvDepthList]
    · simp only [pvDepthList]
      exact le_trans (ih hmem) (le_max_right _ _)

lemma allLists_depth_lt {fr : List PyVal} {d : Nat} {next : List PyVal}
    (h : allListsSameLen fr = some (d, next)) :
    pvDepthList next + 1 ≤ pvDepthList fr := by
  obtain ⟨hne, hall, rfl⟩ := (allLists_some_iff fr d next).mp h
  obtain ⟨v0, hv0⟩ := List.exists_mem_of_ne_nil fr hne
  obtain ⟨l0, rfl, _⟩ := hall v0 hv0
  have hfr1 : 1 ≤ pvDepthList fr := by
    have := pvDepthList_mem hv0
    have h2 : pvDepth (.list l0) = 1 + pvDepthList l0 := rfl
    omega
  have hbound : pvDepthList (joinRows fr) ≤ pvDepthList fr - 1 := by
    refine pvDepthList_le_of_forall ?_
    intro w hw
    simp only [joinRows, List.mem_flatten, List.mem_map] at hw
    obtain ⟨s, ⟨v, hv, rfl⟩, hws⟩ := hw
    obtain ⟨l, rfl, _⟩ := hall v hv
    have h1 : pvDepth w ≤ pvDepthList l := pvDepthList_mem (by simpa [unlist] using hws)
    have h2 : pvDepth (.list l) = 1 + pvDepthList l := rfl
    have h3 := pvDepthList_mem hv
    omega
  omega

lemma npIterate_succ_none {fr : List PyVal} (f : Nat)
    (h : allListsSameLen fr = none) : npIterate (f + 1) fr = ([], fr) := by
  simp [npIterate, h]

lemma npIterate_succ_some {fr : List PyVal} {d : Nat} {next : List PyVal} (f : Nat)
    (h : allListsSameLen fr = some (d, next)) :
    npIterate (f + 1) fr = (d :: (npIterate f next).1, (npIterate f next).2) := by
  simp [npIterate, h]

lemma npIterate_fuel : ∀ (f g : Nat) (fr : List PyVal),
    pvDepthList fr < f → pvDepthList fr < g → npIterate f fr = npIterate g fr := by
  intro f
  induction f with
  | zero => intro g fr hf _; omega
  | succ f ih =>
    intro g fr hf hg
    cases g with
    | zero => omega
    | succ g =>
      cases h : allListsSameLen fr with
      | none => rw [npIterate_succ_none f h, npIterate_succ_none g h]
      | some p =>
        obtain ⟨d, next⟩ := p
        have hlt := allLists_depth_lt h
        rw [npIterate_succ_some f h, npIterate_succ_some g h,
          ih g next (by omega) (by omega)]

lemma npArray_eq_fuel (v : PyVal) (f : Nat) (h : pvDepth v < f) :
    npArray v = npIterate f [v] := by
  unfold npArray
  have hd : pvDepthList [v] = pvDepth v := by simp [pvDepthList]
  exact npIterate_fuel (pvDepth v + 1) f [v] (by omega) (by omega)

lemma pvDepth_atom {a : PyVal} (h : isList a = false) : pvDepth a = 0 := by
  cases a <;> simp [pvDepth] <;> simp [isList] at h

lemma atom_grid_depth (rows : List (List PyVal))
    (hatoms : ∀ r ∈ rows, ∀ a ∈ r, isList a = false) :
    pvDepth (.list (rows.map PyVal.list)) ≤ 2 := by
  have h1 : pvDepthList (rows.map PyVal.list) ≤ 1 := by
    refine pvDepthList_le_of_forall ?_
    intro x hx
    obtain ⟨r, hr, rfl⟩ := List.mem_map.mp hx
    have h2 : pvDepthList r ≤ 0 :=
      pvDepthList_le_of_forall fun a ha => le_of_eq (pvDepth_atom (hatoms r hr a ha))
    have h3 : pvDepth (PyVal.list r) = 1 + pvDepthList r := rfl
    omega
  have h4 : pvDepth (PyVal.list (rows.map PyVal.list)) =
      1 + pvDepthList (rows.map PyVal.list) := rfl
  omega

lemma allLists_of_rows (rows : List (List PyVal)) (c : Nat) (hne : rows ≠ [])
    (hrect : ∀ r ∈ rows, r.length = c) :
    allListsSameLen (rows.map PyVal.list) = some (c, rows.flatten) := by
  refine (allLists_some_iff _ _ _).mpr ⟨by simpa using hne, ?_, ?_⟩
  · intro v hv
    obtain ⟨r, hr, rfl⟩ := List.mem_map.mp hv
    exact ⟨r, rfl, hrect r hr⟩
  · simp [joinRows, List.map_map, unlist]
    congr 1
    exact (List.map_id rows).symm ▸ rfl

lemma allLists_singleton_list (l : List PyVal) :
    allListsSameLen [.list l] = some (l.length, l) := by
  refine (allLists_some_iff _ _ _).mpr ⟨List.cons_ne_nil _ _, ?_, ?_⟩
  · intro v hv
    rcases List.mem_singleton.mp hv with rfl
    exact ⟨l, rfl, rfl⟩
  · simp [joinRows, unlist]

lemma npArray_atom_grid_pos (rows : List (List PyVal)) (c : Nat) (hne : rows ≠ [])
    (hc : 0 < c) (hrect : ∀ r ∈ rows, r.length = c)
    (hatoms : ∀ r ∈ rows, ∀ a ∈ r, isList a = false) :
    npArray (.list (rows.map PyVal.list)) = ([rows.length, c], rows.flatten) := by
  rw [npArray_eq_fuel _ 3 (by have := atom_grid_depth rows hatoms; omega)]
  rw [npIterate_succ_some 2 (by
    simpa [List.length_map] using allLists_singleton_list (rows.map PyVal.list))]
  rw [npIterate_succ_some 1 (allLists_of_rows rows c hne hrect)]
  have hflat : allListsSameLen rows.flatten = none := by
    cases rows with
    | nil => exact absurd rfl hne
    | cons r0 rest =>
      cases r0 with
      | nil =>
        have := hrect [] (List.mem_cons_self _ _)
        simp at this
        omega
      | cons a0 r0' =>
        rw [List.flatten_cons, List.cons_append]
        exact allLists_atom_head a0
          (hatoms (a0 :: r0') (List.mem_cons_self _ _) a0 (List.mem_cons_self _ _)) _
  rw [npIterate_succ_none 0 hflat]

lemma npArray_atom_grid_zero (rows : List (List PyVal)) (hne : rows ≠ [])
    (hrect : ∀ r ∈ rows, r.length = 0) :
    npArray (.list (rows.map PyVal.list)) = ([rows.length, 0], []) := by
  have hatoms : ∀ r ∈ rows, ∀ a ∈ r, isList a = false := by
    intro r hr a ha
    have := hrect r hr
    rw [List.length_eq_zero] at this
    subst this
    cases ha
  rw [npArray_eq_fuel _ 3 (by have := atom_grid_depth rows hatoms; omega)]
  rw [npIterate_succ_some 2 (by
    simpa [List.length_map] using allLists_singleton_list (rows.map PyVal.list))]
  rw [npIterate_succ_some 1 (allLists_of_rows rows 0 hne hrect)]
  have hflat : rows.flatten = [] := by
    rw [List.flatten_eq_nil_iff]
    intro r hr
    exact List.length_eq_zero.mp (hrect r hr)
  rw [hflat, @npIterate_succ_none [] 0 rfl]

lemma npIterate_cons_inv {f : Nat} {fr : List PyVal} {d : Nat} {ds : List Nat}
    {el : List PyVal} (h : npIterate f fr = (d :: ds, el)) :
    ∃ f' next, f = f' + 1 ∧ allListsSameLen fr = some (d, next) ∧
      npIterate f' next = (ds, el) := by
  cases f with
  | zero => simp [npIterate] at h
  | succ f' =>
    cases hA : allListsSameLen fr with
    | none =>
      rw [npIterate_succ_none f' hA] at h
      simp at h
    | some p =>
      obtain ⟨d', next⟩ := p
      rw [npIterate_succ_some f' hA] at h
      have h1 : d' :: (npIterate f' next).1 = d :: ds := congrArg Prod.fst h
      have h2 : (npIterate f' next).2 = el := congrArg Prod.snd h
      rw [List.cons.injEq] at h1
      obtain ⟨rfl, h3⟩ := h1
      refine ⟨f', next, rfl, ?_, ?_⟩
      · rfl
      · have hpair : npIterate f' next =
            ((npIterate f' next).1, (npIterate f' next).2) := rfl
        rw [hpair, h3, h2]

lemma npIterate_nil_inv {f : Nat} {fr el : List PyVal}
    (h : npIterate f fr = ([], el)) : el = fr := by
  cases f with
  | zero =>
    have := congrArg Prod.snd h
    simpa [npIterate] using this.symm
  | succ f' =>
    cases hA : allListsSameLen fr with
    | none =>
      rw [npIterate_succ_none f' hA] at h
      exact (congrArg Prod.snd h).symm
    | some p =>
      obtain ⟨d', next⟩ := p
      rw [npIterate_succ_some f' hA] at h
      have := congrArg Prod.fst h
      simp at this

lemma len_zip_all_iff_forall₂ {α β : Type} (R : α → β → Bool) (l1 : List α)
    (l2 : List β) :
    ((l1.length == l2.length) && (l1.zip l2).all fun p => R p.1 p.2) = true ↔
      List.Forall₂ (fun a b => R a b = true) l1 l2 := by
  rw [Bool.and_eq_true, beq_iff_eq, List.all_eq_true, List.forall₂_iff_zip]
  constructor
  · rintro ⟨hl, hall⟩
    refine ⟨hl, ?_⟩
    intro a b hab
    exact hall (a, b) hab
  · rintro ⟨hl, hall⟩
    refine ⟨hl, ?_⟩
    intro p hp
    exact @hall p.1 p.2 (by simpa using hp)

lemma npEqualAll_iff (a b : List PyVal) :
    npEqualAll a b = true ↔ List.Forall₂ (fun x y => pyEq x y = true) a b :=
  len_zip_all_iff_forall₂ pyEq a b

lemma npVerdict_iff (u w : PyVal) :
    npVerdict u w = true ↔
      ((npArray u).1 = (npArray w).1 ∧
        List.Forall₂ (fun x y => pyEq x y = true) (npArray u).2 (npArray w).2) := by
  unfold npVerdict
  rw [Bool.and_eq_true, beq_iff_eq, npEqualAll_iff]

lemma specRowEqB_iff (rv : PyVal) (wrow : List Int) :
    specRowEqB rv wrow = true ↔ ∃ cells, rv = .list cells ∧
      List.Forall₂ (fun cv z => pyEq cv (.int z) = true) cells wrow := by
  cases rv with
  | list cells =>
    show (cells.length == wrow.length && _) = true ↔ _
    rw [len_zip_all_iff_forall₂ (fun cv z => pyEq cv (.int z))]
    constructor
    · intro h; exact ⟨cells, rfl, h⟩
    · rintro ⟨cells', heq, h⟩
      injection heq with heq'
      rwa [heq']
  | int a => simp [specRowEqB]
  | float a => simp [specRowEqB]
  | bool a => simp [specRowEqB]
  | str a => simp [specRowEqB]

lemma specGridEqB_iff (result : PyVal) (want : Grid) :
    specGridEqB result want = true ↔ ∃ rows, result = .list rows ∧
      List.Forall₂ (fun rv wrow => specRowEqB rv wrow = true) rows want := by
  cases result with
  | list rows =>
    show (rows.length == want.length && _) = true ↔ _
    rw [len_zip_all_iff_forall₂ (fun rv wrow => specRowEqB rv wrow)]
    constructor
    · intro h; exact ⟨rows, rfl, h⟩
    · rintro ⟨rows', heq, h⟩
      injection heq with heq'
      rwa [heq']
  | int a => simp [specGridEqB]
  | float a => simp [specGridEqB]
  | bool a => simp [specGridEqB]
  | str a => simp [specGridEqB]

lemma forall₂_append_split {α β : Type} {R : α → β → Prop} :
    ∀ (l1 : List α) (l2 : List β) (u1 : List α) (u2 : List β),
      List.Forall₂ R (l1 ++ u1) (l2 ++ u2) → l1.length = l2.length →
        List.Forall₂ R l1 l2 ∧ List.Forall₂ R u1 u2 := by
  intro l1
  induction l1 with
  | nil =>
    intro l2 u1 u2 h hl
    have h2 : l2 = [] := List.eq_nil_of_length_eq_zero hl.symm
    subst h2
    exact ⟨List.Forall₂.nil, by simpa using h⟩
  | cons a l1' ih =>
    intro l2 u1 u2 h hl
    cases l2 with
    | nil => simp at hl
    | cons b l2' =>
      simp only [List.cons_append] at h
      rw [List.forall₂_cons] at h
      obtain ⟨hab, h'⟩ := h
      obtain ⟨h1, h2⟩ := ih l2' u1 u2 h' (by simpa using hl)
      exact ⟨List.Forall₂.cons hab h1, h2⟩

lemma flatten_forall₂_split {α β : Type} {R : α → β → Prop} :
    ∀ (A : List (List α)) (B : List (List β)),
      List.Forall₂ (fun (ra : List α) (rb : List β) => ra.length = rb.length) A B →
      List.Forall₂ R A.flatten B.flatten →
      List.Forall₂ (fun ra rb => List.Forall₂ R ra rb) A B := by
  intro A
  induction A with
  | nil =>
    intro B hlen _
    cases hlen
    exact List.Forall₂.nil
  | cons ra A' ih =>
    intro B hlen hflat
    cases hlen with
    | cons hl hrest =>
      rename_i rb B'
      simp only [List.flatten_cons] at hflat
      obtain ⟨h1, h2⟩ := forall₂_append_split ra rb A'.flatten B'.flatten hflat hl
      exact List.Forall₂.cons h1 (ih B' hrest h2)

lemma forall₂_mem_left {α β : Type} {R : α → β → Prop} :
    ∀ {l1 : List α} {l2 : List β}, List.Forall₂ R l1 l2 →
      ∀ a ∈ l1, ∃ b ∈ l2, R a b := by
  intro l1 l2 h
  induction h with
  | nil => intro a ha; cases ha
  | cons hab hrest ih =>
    intro a ha
    rcases List.mem_cons.mp ha with rfl | hmem
    · exact ⟨_, List.mem_cons_self _ _, hab⟩
    · obtain ⟨b, hb, hR⟩ := ih a hmem
      exact ⟨b, List.mem_cons_of_mem _ hb, hR⟩

lemma atom_of_pyEq_int {cv : PyVal} {z : Int} (h : pyEq cv (.int z) = true) :
    isList cv = false := by
  cases cv with
  | int a => rfl
  | float a => rfl
  | bool a => rfl
  | str s =>
    rw [show pyEq (PyVal.str s) (PyVal.int z) = false from rfl] at h
    exact Bool.noConfusion h
  | list l =>
    rw [show pyEq (PyVal.list l) (PyVal.int z) = false from rfl] at h
    exact Bool.noConfusion h

lemma gridVal_as_rows (want : Grid) :
    gridVal want = .list ((want.map fun row => row.map PyVal.int).map PyVal.list) := by
  unfold gridVal
  rw [List.map_map]
  rfl

lemma eq_map_unlist {l : List PyVal} (h : ∀ v ∈ l, ∃ cells, v = .list cells) :
    l = (l.map unlist).map PyVal.list := by
  induction l with
  | nil => rfl
  | cons v l' ih =>
    obtain ⟨cells, rfl⟩ := h v (List.mem_cons_self _ _)
    simp only [List.map_cons, unlist]
    rw [← ih fun w hw => h w (List.mem_cons_of_mem _ hw)]

lemma spec_rows_decompose {rows : List PyVal} {want : Grid}
    (hF : List.Forall₂ (fun rv wrow => specRowEqB rv wrow = true) rows want) :
    ∃ cellRows : List (List PyVal),
      rows = cellRows.map PyVal.list ∧
      List.Forall₂ (fun cells wrow => cells.length = wrow.length ∧
        List.Forall₂ (fun cv z => pyEq cv (.int z) = true) cells wrow)
        cellRows want := by
  induction hF with
  | nil => exact ⟨[], rfl, List.Forall₂.nil⟩
  | cons hrow hrest ih =>
    obtain ⟨cellRows, rfl, hcr⟩ := ih
    obtain ⟨cells, rfl, hcells⟩ := (specRowEqB_iff _ _).mp hrow
    exact ⟨cells :: cellRows, rfl,
      List.Forall₂.cons ⟨hcells.length_eq, hcells⟩ hcr⟩

/-- Central comparison lemma: on a rectangular expected grid, the numpy
object-array comparison agrees with the spec's structural grid
equality. -/
lemma npVerdict_eq_specGridEqB (result : PyVal) (want : Grid) (c : Nat)
    (hrect : ∀ row ∈ want, row.length = c) :
    npVerdict result (gridVal want) = specGridEqB result want := by
  rw [Bool.eq_iff_iff, npVerdict_iff, specGridEqB_iff]
  rcases eq_or_ne want [] with rfl | hne
  · have hw0 : npArray (gridVal ([] : Grid)) = ([0], ([] : List PyVal)) := rfl
    rw [hw0]
    constructor
    · rintro ⟨hshape, hel⟩
      have hshape' : (npArray result).1 = [0] := hshape
      have hp : npIterate (pvDepth result + 1) [result] =
          ([0], (npArray result).2) := by
        rw [← hshape']
        rfl
      obtain ⟨f1, next1, _, hA1, _⟩ := npIterate_cons_inv hp
      obtain ⟨_, hall1, _⟩ := (allLists_some_iff _ _ _).mp hA1
      obtain ⟨l, hl, hlen⟩ := hall1 result (List.mem_singleton.mpr rfl)
      have hl0 : l = [] := List.eq_nil_of_length_eq_zero hlen
      subst hl0
      exact ⟨[], hl, List.Forall₂.nil⟩
    · rintro ⟨rows, rfl, hF⟩
      have hr0 : rows = [] :=
        List.eq_nil_of_length_eq_zero (by simpa using hF.length_eq)
      subst hr0
      exact ⟨rfl, List.Forall₂.nil⟩
  · have hgv := gridVal_as_rows want
    set rows₀ := want.map (fun row => row.map PyVal.int) with hrows₀def
    have hne₀ : rows₀ ≠ [] := by
      rw [hrows₀def]
      simpa using hne
    have hlen₀ : rows₀.length = want.length := by rw [hrows₀def]; simp
    have hrect₀ : ∀ r ∈ rows₀, r.length = c := by
      intro r hr
      rw [hrows₀def] at hr
      obtain ⟨row, hrow, rfl⟩ := List.mem_map.mp hr
      simpa using hrect row hrow
    have hatoms₀ : ∀ r ∈ rows₀, ∀ a ∈ r, isList a = false := by
      intro r hr a ha
      rw [hrows₀def] at hr
      obtain ⟨row, _, rfl⟩ := List.mem_map.mp hr
      obtain ⟨z, _, rfl⟩ := List.mem_map.mp ha
      rfl
    by_cases hc0 : c = 0
    · subst hc0
      have hw := npArray_atom_grid_zero rows₀ hne₀ hrect₀
      rw [hgv, hw]
      constructor
      · rintro ⟨hshape, hel⟩
        have hshape' : (npArray result).1 = [rows₀.length, 0] := hshape
        have hp : npIterate (pvDepth result + 1) [result] =
            ([rows₀.length, 0], (npArray result).2) := by
          rw [← hshape']
          rfl
        obtain ⟨f1, next1, _, hA1, hI1⟩ := npIterate_cons_inv hp
        obtain ⟨_, hall1, hnext1⟩ := (allLists_some_iff _ _ _).mp hA1
        obtain ⟨l, hl, hlen⟩ := hall1 result (List.mem_singleton.mpr rfl)
        have hnext1' : next1 = l := by
          rw [hnext1, hl]
          simp [joinRows, unlist]
        rw [hnext1'] at hI1
        obtain ⟨f2, next2, _, hA2, _⟩ := npIterate_cons_inv hI1
        obtain ⟨_, hall2, _⟩ := (allLists_some_iff _ _ _).mp hA2
        refine ⟨l, hl, ?_⟩
        rw [List.forall₂_iff_zip]
        refine ⟨by omega, ?_⟩
        intro rv wrow hmem
        have hrv : rv ∈ l := (List.of_mem_zip hmem).1
        have hwrow : wrow ∈ want := (List.of_mem_zip hmem).2
        obtain ⟨cells, rfl, hclen⟩ := hall2 rv hrv
        rw [specRowEqB_iff]
        refine ⟨cells, rfl, ?_⟩
        have hc1 : cells = [] := List.eq_nil_of_length_eq_zero hclen
        have hw1 : wrow = [] := List.eq_nil_of_length_eq_zero (hrect wrow hwrow)
        rw [hc1, hw1]
        exact List.Forall₂.nil
      · rintro ⟨rows, rfl, hF⟩
        obtain ⟨cellRows, rfl, hcr⟩ := spec_rows_decompose hF
        have hcrne : cellRows ≠ [] := by
          intro hcontra
          rw [hcontra] at hcr
          cases hcr
          exact hne rfl
        have hcrlen : cellRows.length = want.length := hcr.length_eq
        have hcrrect : ∀ r ∈ cellRows, r.length = 0 := by
          intro r hr
          obtain ⟨wrow, hwrow, hRr⟩ := forall₂_mem_left hcr r hr
          rw [hRr.1]
          exact hrect wrow hwrow
        have hres := npArray_atom_grid_zero cellRows hcrne hcrrect
        rw [hres]
        exact ⟨by rw [hcrlen, hlen₀], List.Forall₂.nil⟩
    · have hcpos : 0 < c := Nat.pos_of_ne_zero hc0
      have hw := npArray_atom_grid_pos rows₀ c hne₀ hcpos hrect₀ hatoms₀
      rw [hgv, hw]
      constructor
      · rintro ⟨hshape, hel⟩
        have hshape' : (npArray result).1 = [rows₀.length, c] := hshape
        have hp : npIterate (pvDepth result + 1) [result] =
            ([rows₀.length, c], (npArray result).2) := by
          rw [← hshape']
          rfl
        obtain ⟨f1, next1, _, hA1, hI1⟩ := npIterate_cons_inv hp
        obtain ⟨_, hall1, hnext1⟩ := (allLists_some_iff _ _ _).mp hA1
        obtain ⟨l, hl, hlen⟩ := hall1 result (List.mem_singleton.mpr rfl)
        have hnext1' : next1 = l := by
          rw [hnext1, hl]
          simp [joinRows, unlist]
        rw [hnext1'] at hI1
        obtain ⟨f2, next2, _, hA2, hI2⟩ := npIterate_cons_inv hI1
        obtain ⟨_, hall2, hnext2⟩ := (allLists_some_iff _ _ _).mp hA2
        have hel2 : (npArray result).2 = next2 := npIterate_nil_inv hI2
        -- decompose the rows of the result
        have hall2' : ∀ v ∈ l, ∃ cells, v = .list cells := by
          intro v hv
          obtain ⟨cells, hcell, _⟩ := hall2 v hv
          exact ⟨cells, hcell⟩
        have hlmap := eq_map_unlist hall2'
        set cellRows := l.map unlist with hcellRows
        have hcrrect : ∀ r ∈ cellRows, r.length = c := by
          intro r hr
          rw [hcellRows] at hr
          obtain ⟨v, hv, rfl⟩ := List.mem_map.mp hr
          obtain ⟨cells, rfl, hclen⟩ := hall2 v hv
          simpa [unlist] using hclen
        have hcrlen : cellRows.length = l.length := by rw [hcellRows]; simp
        -- the flattened elements
        have hflat : (npArray result).2 = cellRows.flatten := by
          rw [hel2, hnext2, hcellRows]
          rfl
        rw [hflat] at hel
        -- rowwise lengths between cellRows and rows₀
        have hlens : List.Forall₂
            (fun (ra : List PyVal) (rb : List PyVal) => ra.length = rb.length)
            cellRows rows₀ := by
          rw [List.forall₂_iff_zip]
          refine ⟨by omega, ?_⟩
          intro ra rb hmem
          rw [hcrrect ra (List.of_mem_zip hmem).1, hrect₀ rb (List.of_mem_zip hmem).2]
        have hrowwise := flatten_forall₂_split cellRows rows₀ hlens hel
        -- transport over the two maps
        rw [hrows₀def, List.forall₂_map_right_iff] at hrowwise
        refine ⟨l, hl, ?_⟩
        rw [hlmap, List.forall₂_map_left_iff]
        refine List.Forall₂.imp ?_ hrowwise
        intro cells wrow hcw
        rw [specRowEqB_iff]
        refine ⟨cells, rfl, ?_⟩
        exact List.forall₂_map_right_iff.mp hcw
      · rintro ⟨rows, rfl, hF⟩
        obtain ⟨cellRows, rfl, hcr⟩ := spec_rows_decompose hF
        have hcrne : cellRows ≠ [] := by
          intro hcontra
          rw [hcontra] at hcr
          cases hcr
          exact hne rfl
        have hcrlen : cellRows.length = want.length := hcr.length_eq
        have hcrrect : ∀ r ∈ cellRows, r.length = c := by
          intro r hr
          obtain ⟨wrow, hwrow, hRr⟩ := forall₂_mem_left hcr r hr
          rw [hRr.1]
          exact hrect wrow hwrow
        have hcratoms : ∀ r ∈ cellRows, ∀ a ∈ r, isList a = false := by
          intro r hr a ha
          obtain ⟨wrow, _, hRr⟩ := forall₂_mem_left hcr r hr
          obtain ⟨z, _, hz⟩ := forall₂_mem_left hRr.2 a ha
          exact atom_of_pyEq_int hz
        have hres := npArray_atom_grid_pos cellRows c hcrne hcpos hcrrect hcratoms
        rw [hres]
        refine ⟨by rw [hcrlen, hlen₀], ?_⟩
        -- elementwise equality of the flattened grids
        have hrowwise : List.Forall₂
            (fun (cells : List PyVal) (r₀ : List PyVal) =>
              List.Forall₂ (fun x y => pyEq x y = true) cells r₀)
            cellRows rows₀ := by
          rw [hrows₀def, List.forall₂_map_right_iff]
          refine List.Forall₂.imp ?_ hcr
          intro cells wrow hcw
          rw [List.forall₂_map_right_iff]
          exact hcw.2
        exact List.rel_flatten hrowwise

/-- C1: for every pair that reaches the comparison step, the numpy
comparison used by `_verify_split` (shape equality plus elementwise
equality of the object arrays) verdicts Correct exactly when the parsed
result structurally equals the expected rectangular grid — identical row
count, identical column count for every corresponding row, and every
corresponding cell numerically equal; the comparison is a total Boolean,
so any ragged or shape-mismatched result is Incorrect, never an error. -/
theorem C1_comparison_iff_structural (result : PyVal) (want : Grid) (c : Nat)
    (hrect : ∀ row ∈ want, row.length = c) :
    npVerdict result (gridVal want) = specGridEqB result want :=
  npVerdict_eq_specGridEqB result want c hrect

/-- C1 witness: the comparison theorem at the spec's ragged example —
`[[1,2]]` against expected `[[1],[2]]` — where both sides evaluate to
Incorrect, not an error. -/
theorem C1_comparison_iff_structural_witness :
    (npVerdict (PyVal.list [PyVal.list [PyVal.int 1, PyVal.int 2]])
        (gridVal [[1], [2]]) =
      specGridEqB (PyVal.list [PyVal.list [PyVal.int 1, PyVal.int 2]]) [[1], [2]])
    ∧ specGridEqB (PyVal.list [PyVal.list [PyVal.int 1, PyVal.int 2]])
        [[1], [2]] = false :=
  ⟨C1_comparison_iff_structural (PyVal.list [PyVal.list [PyVal.int 1, PyVal.int 2]])
      [[1], [2]] 1 (by decide), by rfl⟩

lemma skipWs_not_ws {c : Char} (h : isJsonWs c = false) (rest : List Char) :
    skipWs (c :: rest) = c :: rest := by
  simp [skipWs, h]

lemma isJsonWs_of_digit {c : Char} (h : c.isDigit = true) : isJsonWs c = false := by
  by_contra hcon
  rw [Bool.not_eq_false, isJsonWs] at hcon
  rcases Bool.or_eq_true_iff.mp hcon with h4 | h1
  · rcases Bool.or_eq_true_iff.mp h4 with h5 | h2
    · rcases Bool.or_eq_true_iff.mp h5 with h6 | h3
      · rw [decide_eq_true_eq] at h6; subst h6; exact absurd h (by decide)
      · rw [decide_eq_true_eq] at h3; subst h3; exact absurd h (by decide)
    · rw [decide_eq_true_eq] at h2; subst h2; exact absurd h (by decide)
  · rw [decide_eq_true_eq] at h1; subst h1; exact absurd h (by decide)

lemma takeWhile_append_all {p : Char → Bool} {xs : List Char}
    (h : ∀ x ∈ xs, p x = true) (ys : List Char) :
    (xs ++ ys).takeWhile p = xs ++ ys.takeWhile p := by
  induction xs with
  | nil => rfl
  | cons a as ih =>
    simp only [List.cons_append, List.takeWhile_cons, h a (List.mem_cons_self _ _),
      if_true]
    rw [ih fun x hx => h x (List.mem_cons_of_mem _ hx)]

lemma sepHead_takeWhile_digit {rest : List Char} (h : SepHead rest) :
    rest.takeWhile Char.isDigit = [] := by
  rcases h with rfl | ⟨t, rfl⟩ | ⟨t, rfl⟩
  · rfl
  · simp [List.takeWhile_cons]
  · simp [List.takeWhile_cons]

lemma natRepr_head_digit (n : Nat) :
    ∃ c t, natRepr n = c :: t ∧ c.isDigit = true := by
  obtain ⟨c, t, hct⟩ := List.exists_cons_of_ne_nil (natRepr_ne_nil n)
  exact ⟨c, t, hct, natRepr_all_digits n c (by rw [hct]; exact List.mem_cons_self _ _)⟩

lemma parseNum_nat (n : Nat) (rest : List Char) (hsep : SepHead rest) :
    parseNum (natRepr n ++ rest) = some (.int (n : Int), rest) := by
  obtain ⟨c, t, hct, hc⟩ := natRepr_head_digit n
  have hdigits : ∀ x ∈ natRepr n, Char.isDigit x = true := natRepr_all_digits n
  have hneg : ((natRepr n ++ rest).head? = some '-') = False := by
    rw [hct]
    simp only [List.cons_append, List.head?_cons, Option.some.injEq, eq_iff_iff,
      iff_false]
    intro hcon
    rw [hcon] at hc
    exact absurd hc (by decide)
  have htake : (natRepr n ++ rest).takeWhile Char.isDigit = natRepr n := by
    rw [takeWhile_append_all hdigits, sepHead_takeWhile_digit hsep, List.append_nil]
  have hne : natRepr n ≠ [] := natRepr_ne_nil n
  have hdrop : (natRepr n ++ rest).drop (natRepr n).length = rest := List.drop_left _ _
  simp only [parseNum, hneg, if_false, htake, hdrop, List.isEmpty_iff, hne,
    if_neg hne]
  have hdot : (rest.head? = some '.') = False := by
    rcases hsep with rfl | ⟨t', rfl⟩ | ⟨t', rfl⟩ <;> simp
  simp only [hdot, if_false, parseNatDigits_natRepr]

lemma parseNum_float (n : Nat) (rest : List Char) (hsep : SepHead rest) :
    parseNum (natRepr n ++ '.' :: '0' :: rest) = some (.float (n : Int), rest) := by
  obtain ⟨c, t, hct, hc⟩ := natRepr_head_digit n
  have hdigits : ∀ x ∈ natRepr n, Char.isDigit x = true := natRepr_all_digits n
  have hneg : ((natRepr n ++ '.' :: '0' :: rest).head? = some '-') = False := by
    rw [hct]
    simp only [List.cons_append, List.head?_cons, Option.some.injEq, eq_iff_iff,
      iff_false]
    intro hcon
    rw [hcon] at hc
    exact absurd hc (by decide)
  have htake : (natRepr n ++ '.' :: '0' :: rest).takeWhile Char.isDigit = natRepr n := by
    rw [takeWhile_append_all hdigits]
    simp [List.takeWhile_cons]
  have hne : natRepr n ≠ [] := natRepr_ne_nil n
  have hdrop : (natRepr n ++ '.' :: '0' :: rest).drop (natRepr n).length =
      '.' :: '0' :: rest := List.drop_left _ _
  simp only [parseNum, hneg, if_false, htake, hdrop, List.isEmpty_iff, if_neg hne]
  have hfrac : ('0' :: rest).takeWhile Char.isDigit = ['0'] := by
    simp only [List.takeWhile_cons]
    rw [if_pos (by decide), sepHead_takeWhile_digit hsep]
  simp only [List.head?_cons, List.tail_cons, hfrac, parseNatDigits_natRepr]
  simp

lemma dumps_int_nat (m : Nat) : dumps (.int (m : Int)) = natRepr m := by
  show intRepr (m : Int) = natRepr m
  rw [intRepr, if_neg (by omega), Int.toNat_natCast]

lemma dumps_float_nat (m : Nat) :
    dumps (.float (m : Int)) = natRepr m ++ ['.', '0'] := by
  show intRepr (m : Int) ++ ['.', '0'] = natRepr m ++ ['.', '0']
  rw [intRepr, if_neg (by omega), Int.toNat_natCast]

lemma dumpsElems_cons : ∀ (xs : List PyVal) (x : PyVal),
    dumpsElems (x :: xs) = dumps x ++ sepTail xs := by
  intro xs
  induction xs with
  | nil => intro x; simp [dumpsElems, sepTail]
  | cons y ys ih =>
    intro x
    show dumps x ++ ',' :: ' ' :: dumpsElems (y :: ys) = _
    rw [ih y]
    simp [sepTail]

lemma sepHead_sepTail (xs : List PyVal) (rest : List Char) (h : SepHead rest) :
    SepHead (sepTail xs ++ ']' :: rest) := by
  cases xs with
  | nil => exact Or.inr (Or.inr ⟨rest, rfl⟩)
  | cons y ys => exact Or.inr (Or.inl ⟨_, rfl⟩)

lemma skipWs_dumps_atom {a : PyVal} (ha : NumAtom a) (rest : List Char) :
    skipWs (dumps a ++ rest) = dumps a ++ rest := by
  rcases ha with ⟨m, rfl⟩ | ⟨m, rfl⟩
  · rw [dumps_int_nat]
    obtain ⟨c, t, hct, hc⟩ := natRepr_head_digit m
    rw [hct, List.cons_append, skipWs_not_ws (isJsonWs_of_digit hc)]
  · rw [dumps_float_nat]
    obtain ⟨c, t, hct, hc⟩ := natRepr_head_digit m
    rw [hct, List.cons_append, List.cons_append,
      skipWs_not_ws (isJsonWs_of_digit hc)]

lemma parseVal_atom (fuel : Nat) (a : PyVal) (ha : NumAtom a) (s rest : List Char)
    (hs : skipWs s = dumps a ++ rest) (hsep : SepHead rest) :
    parseVal (fuel + 1) s = some (a, rest) := by
  have hbracket : ((skipWs s).head? = some '[') = False := by
    rw [hs]
    rcases ha with ⟨m, rfl⟩ | ⟨m, rfl⟩
    · rw [dumps_int_nat]
      obtain ⟨c, t, hct, hc⟩ := natRepr_head_digit m
      rw [hct]
      simp only [List.cons_append, List.head?_cons, Option.some.injEq, eq_iff_iff,
        iff_false]
      intro hcon
      rw [hcon] at hc
      exact absurd hc (by decide)
    · rw [dumps_float_nat]
      obtain ⟨c, t, hct, hc⟩ := natRepr_head_digit m
      rw [hct]
      simp only [List.cons_append, List.head?_cons, Option.some.injEq, eq_iff_iff,
        iff_false]
      intro hcon
      rw [hcon] at hc
      exact absurd hc (by decide)
  show (if (skipWs s).head? = some '[' then _ else parseNum (skipWs s)) = _
  rw [if_neg (by rw [hbracket]; exact id), hs]
  rcases ha with ⟨m, rfl⟩ | ⟨m, rfl⟩
  · rw [dumps_int_nat]
    exact parseNum_nat m rest hsep
  · rw [dumps_float_nat, List.append_assoc]
    exact parseNum_float m rest hsep

lemma parseElemsRest_close (fuel : Nat) (acc : List PyVal) (rest : List Char) :
    parseElemsRest (fuel + 1) acc (']' :: rest) = some (acc.reverse, rest) := by
  have hsk : skipWs (']' :: rest) = ']' :: rest := skipWs_not_ws (by decide) rest
  simp only [parseElemsRest]
  rw [hsk, List.head?_cons, if_pos rfl, List.tail_cons]

lemma parseElemsRest_comma (fuel : Nat) (acc : List PyVal) (t : List Char) :
    parseElemsRest (fuel + 1) acc (',' :: t) =
      (match parseVal fuel t with
       | some (v, rest2) => parseElemsRest fuel (v :: acc) rest2
       | none => none) := by
  have hsk : skipWs (',' :: t) = ',' :: t := skipWs_not_ws (by decide) t
  simp only [parseElemsRest]
  rw [hsk, List.head?_cons,
    if_neg (by decide : ¬((some ',' : Option Char) = some ']')), if_pos rfl,
    List.tail_cons]

lemma parseVal_bracket (fuel : Nat) (t : List Char) :
    parseVal (fuel + 1) ('[' :: t) =
      (if (skipWs t).head? = some ']' then some (.list [], (skipWs t).tail)
       else
         match parseVal fuel t with
         | some (v, rest2) =>
           (match parseElemsRest fuel [v] rest2 with
            | some (vs, rest3) => some (.list vs, rest3)
            | none => none)
         | none => none) := by
  have hsk : skipWs ('[' :: t) = '[' :: t := skipWs_not_ws (by decide) t
  simp only [parseVal]
  rw [hsk, List.head?_cons, if_pos rfl, List.tail_cons]

lemma parseElemsRest_atoms :
    ∀ (tl acc : List PyVal) (fuel : Nat) (rest : List Char),
      (∀ a ∈ tl, NumAtom a) → tl.length + 1 ≤ fuel → SepHead rest →
      parseElemsRest fuel acc (sepTail tl ++ ']' :: rest) =
        some (acc.reverse ++ tl, rest) := by
  intro tl
  induction tl with
  | nil =>
    intro acc fuel rest _ hfuel hsep
    obtain ⟨f, rfl⟩ : ∃ f, fuel = f + 1 := ⟨fuel - 1, by omega⟩
    show parseElemsRest (f + 1) acc (']' :: rest) = _
    rw [parseElemsRest_close]
    simp
  | cons x xs ih =>
    intro acc fuel rest hat hfuel hsep
    have hlf : (x :: xs).length + 1 = xs.length + 2 := by simp
    rw [hlf] at hfuel
    obtain ⟨f', rfl⟩ : ∃ f', fuel = f' + 1 + 1 := ⟨fuel - 2, by omega⟩
    have hinput : sepTail (x :: xs) ++ ']' :: rest =
        ',' :: (' ' :: (dumps x ++ (sepTail xs ++ ']' :: rest))) := by
      show (',' :: ' ' :: dumps x ++ sepTail xs) ++ ']' :: rest = _
      simp [List.append_assoc]
    rw [hinput, parseElemsRest_comma]
    have hx : NumAtom x := hat x (List.mem_cons_self _ _)
    have hsep' : SepHead (sepTail xs ++ ']' :: rest) := sepHead_sepTail xs rest hsep
    have hparse : parseVal (f' + 1) (' ' :: (dumps x ++ (sepTail xs ++ ']' :: rest))) =
        some (x, sepTail xs ++ ']' :: rest) := by
      refine parseVal_atom f' x hx _ _ ?_ hsep'
      have h1 : skipWs (' ' :: (dumps x ++ (sepTail xs ++ ']' :: rest))) =
          skipWs (dumps x ++ (sepTail xs ++ ']' :: rest)) := by
        show (if isJsonWs ' ' then _ else _) = _
        rw [if_pos (by decide)]
      rw [h1, skipWs_dumps_atom hx]
    rw [hparse]
    show parseElemsRest (f' + 1) (x :: acc) (sepTail xs ++ ']' :: rest) = _
    rw [ih (x :: acc) (f' + 1) rest
      (fun a haa => hat a (List.mem_cons_of_mem _ haa)) (by omega) hsep]
    simp

lemma dumps_list_eq (xs : List PyVal) :
    dumps (.list xs) = '[' :: (dumpsElems xs ++ [']']) := rfl

lemma parseVal_row (fuel : Nat) (cells : List PyVal)
    (hat : ∀ a ∈ cells, NumAtom a) (s rest : List Char)
    (hfuel : cells.length + 2 ≤ fuel)
    (hs : skipWs s = dumps (.list cells) ++ rest) (hsep : SepHead rest) :
    parseVal fuel s = some (.list cells, rest) := by
  obtain ⟨f, rfl⟩ : ∃ f, fuel = f + 1 := ⟨fuel - 1, by omega⟩
  have hsplit : dumps (.list cells) ++ rest =
      '[' :: (dumpsElems cells ++ (']' :: rest)) := by
    rw [dumps_list_eq]
    simp [List.append_assoc]
  rw [hsplit] at hs
  show (if (skipWs s).head? = some '[' then _ else parseNum (skipWs s)) = _
  rw [hs, List.head?_cons, if_pos rfl, List.tail_cons]
  show parseVal (f + 1) ('[' :: (dumpsElems cells ++ (']' :: rest))) = _
  rw [parseVal_bracket]
  cases cells with
  | nil =>
    rw [show (dumpsElems [] ++ ']' :: rest) = ']' :: rest from rfl]
    rw [skipWs_not_ws (by decide), List.head?_cons, if_pos rfl, List.tail_cons]
  | cons c cs =>
    rw [dumpsElems_cons]
    have hc : NumAtom c := hat c (List.mem_cons_self _ _)
    have hrest : dumps c ++ sepTail cs ++ ']' :: rest =
        dumps c ++ (sepTail cs ++ ']' :: rest) := by simp [List.append_assoc]
    rw [hrest]
    have hsep' : SepHead (sepTail cs ++ ']' :: rest) := sepHead_sepTail cs rest hsep
    have hsk := skipWs_dumps_atom hc (sepTail cs ++ ']' :: rest)
    have hbr : ((skipWs (dumps c ++ (sepTail cs ++ ']' :: rest))).head? =
        some ']') = False := by
      rw [hsk]
      rcases hc with ⟨m, rfl⟩ | ⟨m, rfl⟩
      · rw [dumps_int_nat]
        obtain ⟨ch, t, hct, hcd⟩ := natRepr_head_digit m
        rw [hct]
        simp only [List.cons_append, List.head?_cons, Option.some.injEq, eq_iff_iff,
          iff_false]
        intro hcon
        rw [hcon] at hcd
        exact absurd hcd (by decide)
      · rw [dumps_float_nat]
        obtain ⟨ch, t, hct, hcd⟩ := natRepr_head_digit m
        rw [hct]
        simp only [List.cons_append, List.head?_cons, Option.some.injEq, eq_iff_iff,
          iff_false]
        intro hcon
        rw [hcon] at hcd
        exact absurd hcd (by decide)
    rw [if_neg (by rw [hbr]; exact id)]
    obtain ⟨f', rfl⟩ : ∃ f', f = f' + 1 := ⟨f - 1, by simp at hfuel; omega⟩
    have hparse : parseVal (f' + 1) (dumps c ++ (sepTail cs ++ ']' :: rest)) =
        some (c, sepTail cs ++ ']' :: rest) :=
      parseVal_atom f' c hc _ _ (skipWs_dumps_atom hc _) hsep'
    rw [hparse]
    show (match parseElemsRest (f' + 1) [c] (sepTail cs ++ ']' :: rest) with
          | some (vs, rest3) => some (PyVal.list vs, rest3)
          | none => none) = _
    rw [parseElemsRest_atoms cs [c] (f' + 1) rest
      (fun a haa => hat a (List.mem_cons_of_mem _ haa))
      (by simp at hfuel; omega) hsep]
    rfl

lemma rowsFuel_cons (x : PyVal) (xs : List PyVal) :
    rowsFuel (x :: xs) = valCost x + rowsFuel xs := by
  simp [rowsFuel]

lemma skipWs_bracket_head (t : List Char) : skipWs ('[' :: t) = '[' :: t :=
  skipWs_not_ws (by decide) t

lemma parseElemsRest_rows :
    ∀ (tl acc : List PyVal) (fuel : Nat) (rest : List Char),
      (∀ v ∈ tl, GoodRow v) → rowsFuel tl + 1 ≤ fuel → SepHead rest →
      parseElemsRest fuel acc (sepTail tl ++ ']' :: rest) =
        some (acc.reverse ++ tl, rest) := by
  intro tl
  induction tl with
  | nil =>
    intro acc fuel rest _ hfuel hsep
    obtain ⟨f, rfl⟩ : ∃ f, fuel = f + 1 := ⟨fuel - 1, by omega⟩
    show parseElemsRest (f + 1) acc (']' :: rest) = _
    rw [parseElemsRest_close]
    simp
  | cons x xs ih =>
    intro acc fuel rest hrows hfuel hsep
    obtain ⟨cells, rfl, hcells⟩ := hrows x (List.mem_cons_self _ _)
    rw [rowsFuel_cons] at hfuel
    have hvc : valCost (.list cells) = cells.length + 3 := rfl
    rw [hvc] at hfuel
    obtain ⟨f', rfl⟩ : ∃ f', fuel = f' + 1 + 1 := ⟨fuel - 2, by omega⟩
    have hinput : sepTail (.list cells :: xs) ++ ']' :: rest =
        ',' :: (' ' :: (dumps (.list cells) ++ (sepTail xs ++ ']' :: rest))) := by
      show (',' :: ' ' :: dumps (.list cells) ++ sepTail xs) ++ ']' :: rest = _
      simp [List.append_assoc]
    rw [hinput, parseElemsRest_comma]
    have hsep' : SepHead (sepTail xs ++ ']' :: rest) := sepHead_sepTail xs rest hsep
    have hparse : parseVal (f' + 1)
        (' ' :: (dumps (.list cells) ++ (sepTail xs ++ ']' :: rest))) =
        some (.list cells, sepTail xs ++ ']' :: rest) := by
      refine parseVal_row (f' + 1) cells hcells _ _ (by omega) ?_ hsep'
      have h1 : skipWs (' ' :: (dumps (.list cells) ++ (sepTail xs ++ ']' :: rest))) =
          skipWs (dumps (.list cells) ++ (sepTail xs ++ ']' :: rest)) := by
        show (if isJsonWs ' ' then _ else _) = _
        rw [if_pos (by decide)]
      rw [h1, dumps_list_eq]
      rw [show ('[' :: (dumpsElems cells ++ [']'])) ++ (sepTail xs ++ ']' :: rest) =
        '[' :: ((dumpsElems cells ++ [']']) ++ (sepTail xs ++ ']' :: rest)) from rfl]
      rw [skipWs_bracket_head]
    rw [hparse]
    show parseElemsRest (f' + 1) (.list cells :: acc) (sepTail xs ++ ']' :: rest) = _
    rw [ih (.list cells :: acc) (f' + 1) rest
      (fun v hv => hrows v (List.mem_cons_of_mem _ hv)) (by omega) hsep]
    simp

lemma parseVal_grid (fuel : Nat) (rows : List PyVal)
    (hrows : ∀ v ∈ rows, GoodRow v) (s rest : List Char)
    (hfuel : rowsFuel rows + 2 ≤ fuel)
    (hs : skipWs s = dumps (.list rows) ++ rest) (hsep : SepHead rest) :
    parseVal fuel s = some (.list rows, rest) := by
  obtain ⟨f, rfl⟩ : ∃ f, fuel = f + 1 := ⟨fuel - 1, by omega⟩
  have hsplit : dumps (.list rows) ++ rest =
      '[' :: (dumpsElems rows ++ (']' :: rest)) := by
    rw [dumps_list_eq]
    simp [List.append_assoc]
  rw [hsplit] at hs
  show (if (skipWs s).head? = some '[' then _ else parseNum (skipWs s)) = _
  rw [hs, List.head?_cons, if_pos rfl, List.tail_cons]
  show parseVal (f + 1) ('[' :: (dumpsElems rows ++ (']' :: rest))) = _
  rw [parseVal_bracket]
  cases rows with
  | nil =>
    rw [show (dumpsElems [] ++ ']' :: rest) = ']' :: rest from rfl]
    rw [skipWs_not_ws (by decide), List.head?_cons, if_pos rfl, List.tail_cons]
  | cons r rs =>
    rw [dumpsElems_cons]
    obtain ⟨cells, hr, hcells⟩ := hrows r (List.mem_cons_self _ _)
    subst hr
    rw [rowsFuel_cons] at hfuel
    have hvc : valCost (.list cells) = cells.length + 3 := rfl
    rw [hvc] at hfuel
    have hrest : dumps (.list cells) ++ sepTail rs ++ ']' :: rest =
        dumps (.list cells) ++ (sepTail rs ++ ']' :: rest) := by
      simp [List.append_assoc]
    rw [hrest]
    have hsep' : SepHead (sepTail rs ++ ']' :: rest) := sepHead_sepTail rs rest hsep
    have hskrow : skipWs (dumps (.list cells) ++ (sepTail rs ++ ']' :: rest)) =
        dumps (.list cells) ++ (sepTail rs ++ ']' :: rest) := by
      rw [dumps_list_eq]
      rw [show ('[' :: (dumpsElems cells ++ [']'])) ++ (sepTail rs ++ ']' :: rest) =
        '[' :: ((dumpsElems cells ++ [']']) ++ (sepTail rs ++ ']' :: rest)) from rfl]
      rw [skipWs_bracket_head]
    have hbr : ((skipWs (dumps (.list cells) ++ (sepTail rs ++ ']' :: rest))).head? =
        some ']') = False := by
      rw [hskrow, dumps_list_eq]
      rw [show ('[' :: (dumpsElems cells ++ [']'])) ++ (sepTail rs ++ ']' :: rest) =
        '[' :: ((dumpsElems cells ++ [']']) ++ (sepTail rs ++ ']' :: rest)) from rfl]
      simp only [List.head?_cons, Option.some.injEq, eq_iff_iff, iff_false]
      decide
    rw [if_neg (by rw [hbr]; exact id)]
    obtain ⟨f', rfl⟩ : ∃ f', f = f' + 1 := ⟨f - 1, by omega⟩
    have hparse : parseVal (f' + 1)
        (dumps (.list cells) ++ (sepTail rs ++ ']' :: rest)) =
        some (.list cells, sepTail rs ++ ']' :: rest) :=
      parseVal_row (f' + 1) cells hcells _ _ (by omega) hskrow hsep'
    rw [hparse]
    show (match parseElemsRest (f' + 1) [.list cells] (sepTail rs ++ ']' :: rest) with
          | some (vs, rest3) => some (PyVal.list vs, rest3)
          | none => none) = _
    rw [parseElemsRest_rows rs [.list cells] (f' + 1) rest
      (fun v hv => hrows v (List.mem_cons_of_mem _ hv)) (by omega) hsep]
    rfl

lemma dumps_atom_len {a : PyVal} (ha : NumAtom a) : 1 ≤ (dumps a).length := by
  rcases ha with ⟨m, rfl⟩ | ⟨m, rfl⟩
  · rw [dumps_int_nat]
    exact List.length_pos.mpr (natRepr_ne_nil m)
  · rw [dumps_float_nat]
    simp only [List.length_append]
    have := List.length_pos.mpr (natRepr_ne_nil m)
    omega

lemma sepTail_atoms_len (xs : List PyVal) (h : ∀ a ∈ xs, NumAtom a) :
    xs.length ≤ (sepTail xs).length := by
  induction xs with
  | nil => simp [sepTail]
  | cons x xs ih =>
    have hx := dumps_atom_len (h x (List.mem_cons_self _ _))
    have ih' := ih fun a ha => h a (List.mem_cons_of_mem _ ha)
    show (x :: xs).length ≤ ((',' :: ' ' :: dumps x ++ sepTail xs) : List Char).length
    simp only [List.length_cons, List.length_append]
    omega

lemma dumps_row_len (cells : List PyVal) (h : ∀ a ∈ cells, NumAtom a) :
    cells.length + 2 ≤ (dumps (.list cells)).length := by
  rw [dumps_list_eq]
  cases cells with
  | nil => simp
  | cons c cs =>
    rw [dumpsElems_cons]
    have hc := dumps_atom_len (h c (List.mem_cons_self _ _))
    have hcs := sepTail_atoms_len cs fun a ha => h a (List.mem_cons_of_mem _ ha)
    simp only [List.length_cons, List.length_append]
    omega

lemma sepTail_rows_fuel (xs : List PyVal) (h : ∀ v ∈ xs, GoodRow v) :
    rowsFuel xs ≤ 2 * (sepTail xs).length := by
  induction xs with
  | nil => simp [rowsFuel, sepTail]
  | cons x xs ih =>
    obtain ⟨cells, rfl, hcells⟩ := h x (List.mem_cons_self _ _)
    have hrow := dumps_row_len cells hcells
    have ih' := ih fun v hv => h v (List.mem_cons_of_mem _ hv)
    rw [rowsFuel_cons]
    have hvc : valCost (.list cells) = cells.length + 3 := rfl
    rw [hvc]
    show _ ≤ 2 * ((',' :: ' ' :: dumps (.list cells) ++ sepTail xs) : List Char).length
    simp only [List.length_cons, List.length_append]
    omega

lemma rowsFuel_le_dumps (rows : List PyVal) (h : ∀ v ∈ rows, GoodRow v) :
    rowsFuel rows ≤ 2 * (dumps (.list rows)).length := by
  rw [dumps_list_eq]
  cases rows with
  | nil => simp [rowsFuel]
  | cons r rs =>
    obtain ⟨cells, hr, hcells⟩ := h r (List.mem_cons_self _ _)
    subst hr
    rw [dumpsElems_cons, rowsFuel_cons]
    have hvc : valCost (.list cells) = cells.length + 3 := rfl
    rw [hvc]
    have hrow := dumps_row_len cells hcells
    have htail := sepTail_rows_fuel rs fun v hv => h v (List.mem_cons_of_mem _ hv)
    simp only [List.length_cons, List.length_append]
    omega

lemma loads_dumps_grid (rows : List PyVal) (h : ∀ v ∈ rows, GoodRow v) :
    loads (dumps (.list rows)) = some (.list rows) := by
  unfold loads
  rw [parseVal_grid (2 * (dumps (.list rows)).length + 2) rows h _ []
    (by have := rowsFuel_le_dumps rows h; omega)
    (by rw [List.append_nil, dumps_list_eq]; exact skipWs_bracket_head _)
    (Or.inl rfl)]
  rfl

lemma replaceGo_noop (c0 : Char) (pt rep : List Char) :
    ∀ (fuel : Nat) (s : List Char), c0 ∉ s → replaceGo (c0 :: pt) rep fuel s = s := by
  intro fuel
  induction fuel with
  | zero => intro s _; cases s <;> rfl
  | succ f ih =>
    intro s hc0
    cases s with
    | nil => rfl
    | cons c rest =>
      have hcond : ¬((c0 :: pt) ≠ [] ∧ (c0 :: pt).isPrefixOf (c :: rest) = true) := by
        rintro ⟨_, hpre⟩
        have : (c0 == c && pt.isPrefixOf rest) = true := hpre
        rw [Bool.and_eq_true, beq_iff_eq] at this
        exact hc0 (this.1 ▸ List.mem_cons_self c rest)
      show (if (c0 :: pt) ≠ [] ∧ (c0 :: pt).isPrefixOf (c :: rest) = true then _
        else c :: replaceGo (c0 :: pt) rep f rest) = _
      rw [if_neg hcond, ih rest fun hm => hc0 (List.mem_cons_of_mem _ hm)]

lemma replaceAll_noop (c0 : Char) (pt rep s : List Char) (h : c0 ∉ s) :
    replaceAll (c0 :: pt) rep s = s :=
  replaceGo_noop c0 pt rep s.length s h

lemma normalizeBools_noop (s : List Char) (ht : 't' ∉ s) (hf : 'f' ∉ s) :
    normalizeBools s = s := by
  have h1 : replaceAll "true".data "1".data s = s :=
    replaceAll_noop 't' ['r', 'u', 'e'] "1".data s ht
  have h2 : replaceAll "false".data "0".data s = s :=
    replaceAll_noop 'f' ['a', 'l', 's', 'e'] "0".data s hf
  show replaceAll "false".data "0".data (replaceAll "true".data "1".data s) = s
  rw [h1, h2]

lemma hasUnsafeChar_false_of {s : List Char} (h : ∀ c ∈ s, allowedChar c = true) :
    hasUnsafeChar s = false := by
  rw [hasUnsafeChar, List.any_eq_false]
  intro c hc
  simp [h c hc]

lemma allowed_of_digit {c : Char} (h : c.isDigit = true) : allowedChar c = true := by
  simp [allowedChar, h]

lemma natRepr_allowed (n : Nat) : ∀ c ∈ natRepr n, allowedChar c = true :=
  fun c hc => allowed_of_digit (natRepr_all_digits n c hc)

lemma dumps_atom_allowed {a : PyVal} (ha : NumAtom a) :
    ∀ c ∈ dumps a, allowedChar c = true := by
  rcases ha with ⟨m, rfl⟩ | ⟨m, rfl⟩
  · rw [dumps_int_nat]
    exact natRepr_allowed m
  · rw [dumps_float_nat]
    intro c hc
    rcases List.mem_append.mp hc with h1 | h2
    · exact natRepr_allowed m c h1
    · rcases List.mem_cons.mp h2 with rfl | h3
      · decide
      · rcases List.mem_singleton.mp h3 with rfl
        decide

lemma sepTail_allowed (xs : List PyVal)
    (h : ∀ x ∈ xs, ∀ c ∈ dumps x, allowedChar c = true) :
    ∀ c ∈ sepTail xs, allowedChar c = true := by
  induction xs with
  | nil => intro c hc; cases hc
  | cons x xs ih =>
    intro c hc
    have hc' : c ∈ (',' :: ' ' :: dumps x ++ sepTail xs : List Char) := hc
    rcases List.mem_append.mp hc' with h1 | h2
    · rcases List.mem_cons.mp h1 with rfl | h3
      · decide
      · rcases List.mem_cons.mp h3 with rfl | h4
        · decide
        · exact h x (List.mem_cons_self _ _) c h4
    · exact ih (fun y hy => h y (List.mem_cons_of_mem _ hy)) c h2

lemma dumps_row_allowed (cells : List PyVal) (h : ∀ a ∈ cells, NumAtom a) :
    ∀ c ∈ dumps (.list cells), allowedChar c = true := by
  rw [dumps_list_eq]
  intro c hc
  rcases List.mem_cons.mp hc with rfl | h1
  · decide
  · rcases List.mem_append.mp h1 with h2 | h3
    · cases cells with
      | nil => cases h2
      | cons x xs =>
        rw [dumpsElems_cons] at h2
        rcases List.mem_append.mp h2 with h4 | h5
        · exact dumps_atom_allowed (h x (List.mem_cons_self _ _)) c h4
        · exact sepTail_allowed xs
            (fun y hy => dumps_atom_allowed (h y (List.mem_cons_of_mem _ hy))) c h5
    · rcases List.mem_singleton.mp h3 with rfl
      decide

lemma dumps_grid_allowed (rows : List PyVal) (h : ∀ v ∈ rows, GoodRow v) :
    ∀ c ∈ dumps (.list rows), allowedChar c = true := by
  rw [dumps_list_eq]
  intro c hc
  rcases List.mem_cons.mp hc with rfl | h1
  · decide
  · rcases List.mem_append.mp h1 with h2 | h3
    · cases rows with
      | nil => cases h2
      | cons r rs =>
        rw [dumpsElems_cons] at h2
        rcases List.mem_append.mp h2 with h4 | h5
        · obtain ⟨cells, rfl, hcells⟩ := h r (List.mem_cons_self _ _)
          exact dumps_row_allowed cells hcells c h4
        · refine sepTail_allowed rs ?_ c h5
          intro y hy
          obtain ⟨cells, rfl, hcells⟩ := h y (List.mem_cons_of_mem _ hy)
          exact dumps_row_allowed cells hcells
    · rcases List.mem_singleton.mp h3 with rfl
      decide

lemma sanitize_result_grid (rows : List PyVal) (h : ∀ v ∈ rows, GoodRow v) :
    sanitize_result (.list rows) = .ok (.list rows) := by
  have hallow := dumps_grid_allowed rows h
  have ht : 't' ∉ dumps (.list rows) := by
    intro hmem
    exact absurd (hallow 't' hmem) (by decide)
  have hf : 'f' ∉ dumps (.list rows) := by
    intro hmem
    exact absurd (hallow 'f' hmem) (by decide)
  have hnorm := normalizeBools_noop (dumps (.list rows)) ht hf
  show (if hasUnsafeChar (normalizeBools (dumps (.list rows))) = true then _ else _) = _
  rw [hnorm, hasUnsafeChar_false_of hallow]
  rw [if_neg (by exact Bool.false_ne_true), loads_dumps_grid rows h]

lemma deep_copy_grid_eq (g : Grid) : deep_copy_grid g = g := by
  simp [deep_copy_grid]

lemma verifyLoop_all_pass (prog : Solver) :
    ∀ (pairs : List Pair) (r w : Nat) (d : Option FailDetail) (tb : String),
      (∀ p ∈ pairs, ∃ parsed, run_and_sanitize prog p.input = .ok parsed ∧
        npVerdict parsed (gridVal p.output) = true) →
      verifyLoop prog pairs r w d tb = (r + pairs.length, w, d, tb) := by
  intro pairs
  induction pairs with
  | nil => intro r w d tb _; simp [verifyLoop]
  | cons ex rest ih =>
    intro r w d tb hall
    obtain ⟨parsed, hok, hv⟩ := hall ex (List.mem_cons_self _ _)
    simp only [verifyLoop, hok]
    rw [if_pos hv, ih (r + 1) w d tb fun p hp => hall p (List.mem_cons_of_mem _ hp)]
    simp only [List.length_cons]
    have : r + 1 + rest.length = r + (rest.length + 1) := by omega
    rw [this]

/-- C5: verifying the deep-copy identity solver against pairs whose
expected output equals the input (rectangular grids of non-negative
integers) passes every pair: the serialize → normalize → sanitize →
re-parse round trip preserves every such grid, and the comparison finds it
equal to itself. -/
theorem C5_identity_roundtrip (pairs : List Pair)
    (hio : ∀ p ∈ pairs, p.output = p.input)
    (hrect : ∀ p ∈ pairs, ∃ c, ∀ row ∈ p.input, row.length = c)
    (hnn : ∀ p ∈ pairs, ∀ row ∈ p.input, ∀ z ∈ row, 0 ≤ z) :
    verify_split (fun g => Except.ok (gridVal (deep_copy_grid g))) pairs =
      (pairs.length, 0, none, "") := by
  have hstep : ∀ p ∈ pairs, ∃ parsed,
      run_and_sanitize (fun g => Except.ok (gridVal (deep_copy_grid g))) p.input =
        .ok parsed ∧ npVerdict parsed (gridVal p.output) = true := by
    intro p hp
    refine ⟨gridVal p.input, ?_, ?_⟩
    · show sanitize_result (gridVal (deep_copy_grid (deep_copy_grid p.input))) = _
      rw [deep_copy_grid_eq, deep_copy_grid_eq]
      have hrows : ∀ v ∈ p.input.map (fun row => PyVal.list (row.map PyVal.int)),
          GoodRow v := by
        intro v hv
        obtain ⟨row, hrow, rfl⟩ := List.mem_map.mp hv
        refine ⟨row.map PyVal.int, rfl, ?_⟩
        intro a ha
        obtain ⟨z, hz, rfl⟩ := List.mem_map.mp ha
        exact Or.inl ⟨z.toNat, by rw [Int.toNat_of_nonneg (hnn p hp row hrow z hz)]⟩
      exact sanitize_result_grid _ hrows
    · rw [hio p hp]
      exact npVerdict_refl _
  show verifyLoop _ pairs 0 0 none "" = _
  rw [verifyLoop_all_pass _ pairs 0 0 none "" hstep]
  simp

/-- C5 witness: the identity solver passes a one-pair split whose expected
output equals its input. -/
theorem C5_identity_roundtrip_witness :
    verify_split (fun g => Except.ok (gridVal (deep_copy_grid g)))
      [⟨[[1, 2]], [[1, 2]]⟩] = (1, 0, none, "") :=
  C5_identity_roundtrip [⟨[[1, 2]], [[1, 2]]⟩]
    (by intro p hp; rw [List.mem_singleton] at hp; subst hp; rfl)
    (by
      intro p hp; rw [List.mem_singleton] at hp; subst hp
      exact ⟨2, by
        intro row hrow
        rw [List.mem_singleton] at hrow
        subst hrow
        rfl⟩)
    (by
      intro p hp; rw [List.mem_singleton] at hp; subst hp
      intro row hrow
      rw [List.mem_singleton] at hrow
      subst hrow
      intro z hz
      simp at hz
      rcases hz with rfl | rfl <;> omega)

/-- C10: a solver returning the expected integer grid with some cells as
numerically equal integer-valued floats (e.g. `1.0` for `1`) is verdicted
Correct: the sanitizer's character classes admit the period, the re-parse
preserves the float cells, and the cell comparison tests numeric equality
of values rather than integer type identity. -/
theorem C10_float_cells_correct (want : Grid) (c : Nat)
    (hrect : ∀ row ∈ want, row.length = c)
    (hnn : ∀ row ∈ want, ∀ z ∈ row, 0 ≤ z)
    (result : List (List PyVal))
    (hcells : List.Forall₂ (fun rrow wrow =>
        List.Forall₂ (fun cv z => cv = PyVal.int z ∨ cv = PyVal.float z) rrow wrow)
      result want)
    (g : Grid) :
    run_and_sanitize (fun _ => Except.ok (.list (result.map PyVal.list))) g =
      Except.ok (.list (result.map PyVal.list))
    ∧ verify_split (fun _ => Except.ok (.list (result.map PyVal.list))) [⟨g, want⟩] =
      (1, 0, none, "") := by
  have hgood : ∀ v ∈ result.map PyVal.list, GoodRow v := by
    intro v hv
    obtain ⟨rrow, hrrow, rfl⟩ := List.mem_map.mp hv
    obtain ⟨wrow, hwrow, hF⟩ := forall₂_mem_left hcells rrow hrrow
    refine ⟨rrow, rfl, ?_⟩
    intro a ha
    obtain ⟨z, hz, hazor⟩ := forall₂_mem_left hF a ha
    have hz0 : 0 ≤ z := hnn wrow hwrow z hz
    rcases hazor with rfl | rfl
    · exact Or.inl ⟨z.toNat, by rw [Int.toNat_of_nonneg hz0]⟩
    · exact Or.inr ⟨z.toNat, by rw [Int.toNat_of_nonneg hz0]⟩
  have hrun : run_and_sanitize (fun _ => Except.ok (.list (result.map PyVal.list))) g =
      Except.ok (.list (result.map PyVal.list)) := by
    show sanitize_result (.list (result.map PyVal.list)) = _
    exact sanitize_result_grid _ hgood
  refine ⟨hrun, ?_⟩
  have hverdict : npVerdict (.list (result.map PyVal.list)) (gridVal want) = true := by
    rw [npVerdict_eq_specGridEqB _ want c hrect, specGridEqB_iff]
    refine ⟨result.map PyVal.list, rfl, ?_⟩
    rw [List.forall₂_map_left_iff]
    refine List.Forall₂.imp ?_ hcells
    intro rrow wrow hF
    rw [specRowEqB_iff]
    refine ⟨rrow, rfl, ?_⟩
    refine List.Forall₂.imp ?_ hF
    intro cv z h
    rcases h with rfl | rfl
    · show pyEq (.int z) (.int z) = true
      simp [pyEq]
    · show pyEq (.float z) (.int z) = true
      simp [pyEq]
  show verifyLoop _ [⟨g, want⟩] 0 0 none "" = _
  simp only [verifyLoop, hrun]
  rw [if_pos hverdict]

/-- C10 witness: `[[1.0, 2], [3, 4.0]]` against expected `[[1, 2], [3, 4]]`
is verdicted Correct. -/
theorem C10_float_cells_correct_witness :
    run_and_sanitize (fun _ => Except.ok (.list
        ([[PyVal.float 1, PyVal.int 2], [PyVal.int 3, PyVal.float 4]].map PyVal.list)))
      [[0]] =
      Except.ok (.list
        ([[PyVal.float 1, PyVal.int 2], [PyVal.int 3, PyVal.float 4]].map PyVal.list))
    ∧ verify_split (fun _ => Except.ok (.list
        ([[PyVal.float 1, PyVal.int 2], [PyVal.int 3, PyVal.float 4]].map PyVal.list)))
      [⟨[[0]], [[1, 2], [3, 4]]⟩] = (1, 0, none, "") :=
  C10_float_cells_correct [[1, 2], [3, 4]] 2 (by decide) (by decide)
    [[PyVal.float 1, PyVal.int 2], [PyVal.int 3, PyVal.float 4]]
    (List.Forall₂.cons
      (List.Forall₂.cons (Or.inr rfl) (List.Forall₂.cons (Or.inl rfl) List.Forall₂.nil))
      (List.Forall₂.cons
        (List.Forall₂.cons (Or.inl rfl) (List.Forall₂.cons (Or.inr rfl) List.Forall₂.nil))
        List.Forall₂.nil))
    [[0]]
